import Mathlib

/-!
The library cfmt: a shallow embedding of `format.h`

The development models the substitution engine of `src/format.h`
(`print_write`, `print_end`) and the three entry macros (`print`, `fprint`,
`snprint`) together with `PRINT_PUSH`.

Conventions of the embedding.

* A C string (`const char *`) is the list of its characters before the
  terminating zero; the terminator itself is implicit.  `strlen` is therefore
  `List.length`.
* A destination buffer is a list of characters indexed by offset from `str`;
  pointers into it (`s->buf`, `s->buf_end`) are offsets.
* `assert` is compiled in (nothing in the sources defines `NDEBUG`): a failed
  assertion aborts the program, which the model renders as `none`.
* The linked list of `printer_item` records is the list of its records in
  `next` order; `NULL` is the empty list.
* Two ghost fields record what the code does without influencing it:
  `log` (calls of `print_write` on a bounded sink, every byte store, the
  terminator store), and `freed` (records passed to `free`, in order).
* The queue is modelled a second time at the level of pointers
  (`linked_state`, `PRINT_PUSH_linked`, `print_end_linked`): records live at
  addresses, `next`, `head` and `tail` are addresses or `NULL`, and reading a
  released record or releasing it twice is a fault.  The theorems relate this
  model to the list model.
* The C library is outside the repository: `snprintf` is modelled by its
  contract, given the complete rendering of the value.
-/

namespace Cfmt

/-- The zero character that terminates a C string. -/
abbrev NUL : Char := Char.ofNat 0

/-- Type of formatter functions, `int f(char *buf, size_t size, ...)`, applied
to one fixed value: given `size` it yields the characters it stores at
`buf[0..]` and its return value. -/
abbrev printf_formatter_t := Nat → List Char × Nat

/-- Record of the render queue: `struct printer_item` without its `next` link,
which is the list structure of the queue. -/
structure printer_item where
  typename : List Char
  text : List Char
deriving DecidableEq, Repr

/-- Ghost events of a session on a bounded sink. -/
inductive Event where
  /-- `print_write` was entered with `s->buf` at offset `pos`. -/
  | call (pos : Nat)
  /-- `memcpy` stored the character `c` at offset `off`. -/
  | store (off : Nat) (c : Char)
  /-- `print_write` returned with `s->buf` at offset `pos`. -/
  | ret (pos : Nat)
  /-- `print_end` stored the terminator at offset `off`. -/
  | term (off : Nat)
deriving DecidableEq, Repr

/-- The session: `struct printer_state` and the part of the world it writes to.
`buf_end = none` is the `NULL` pointer, which selects the stream sink. The two
members of the anonymous union are kept apart: `file` is the content written to
the `FILE` so far, `buf` the offset of the write position in `mem`. -/
structure printer_state where
  fmt : List Char
  buf_end : Option Nat
  buf : Nat
  file : List Char
  head : List printer_item
  mem : List Char
  log : List Event
  freed : List printer_item
deriving DecidableEq, Repr

/-- One argument of a print macro after the `_Generic` selections of
`PRINT_PUSH`: the label `PRINT_TYPE_NAME(x)` and the formatter applied to `x`
(either `snprintf` with the format string of `PRINT_FMT_STR(x)` or the function
of `PRINT_FMT_FUNC(x)`). -/
structure Arg where
  typename : List Char
  formatter : printf_formatter_t

/-- The behaviour of the C library's `snprintf(buf, size, fmt, x)` whose
complete rendering of `x` is `full`: at most `size - 1` characters and a
terminator are stored, the untruncated length is returned. -/
def snprintf (full : List Char) : printf_formatter_t :=
  fun size => (if size = 0 then [] else full.take (size - 1) ++ [NUL], full.length)

/-- Reading a C string out of storage: the characters before the first zero. -/
def cstr (bytes : List Char) : List Char :=
  bytes.takeWhile (fun c => c != NUL)

/-- The stores of `memcpy(mem + dst, src, n)`: `src[j]` goes to offset
`dst + j` for `j < n`. -/
def memcpy (mem : List Char) (dst : Nat) (src : List Char) : Nat → List Char
  | 0 => mem
  | n + 1 =>
    match src with
    | [] => mem
    | c :: cs => memcpy (mem.set dst c) (dst + 1) cs n

/-- Ghost: the store events of `memcpy(mem + dst, src, n)`. -/
def memcpy_log (dst : Nat) (src : List Char) : Nat → List Event
  | 0 => []
  | n + 1 =>
    match src with
    | [] => []
    | c :: cs => Event.store dst c :: memcpy_log (dst + 1) cs n

/-- The function `print_write(s, text, len)`; `text` is the C string the
pointer designates, and `len = 0` asks for `strlen(text)`. The two `assert`s
of the bounded branch abort when they fail. -/
def print_write (s : printer_state) (text : List Char) (len : Nat) : Option printer_state :=
  match s.buf_end with
  | some e =>
    let len := if len = 0 then text.length else len
    if ¬ (e > s.buf) then none
    else
      let n := e - s.buf - 1
      let n := if n > len then len else n
      let s1 : printer_state :=
        { s with
          mem := memcpy s.mem s.buf text n
          buf := s.buf + n
          log := s.log ++ Event.call s.buf :: memcpy_log s.buf text n }
      if ¬ (e > s1.buf) then none
      else some { s1 with log := s1.log ++ [Event.ret s1.buf] }
  | none =>
    if len ≠ 0 then some { s with file := s.file ++ text.take len }
    else some { s with file := s.file ++ text }

/-- The `for` loop of `print_end` over the template: `c` is the rest of the
template, `i` the rest of the queue. It yields the queue pointer `i` left at
the end of the template. -/
def print_end_scan :
    List Char → List printer_item → printer_state → Option (List printer_item × printer_state)
  | [], i, s => some (i, s)
  | c :: rest, i, s =>
    if c = '%' then
      match i with
      | item :: next =>
        match print_write s item.text 0 with
        | none => none
        | some s1 => print_end_scan rest next { s1 with freed := s1.freed ++ [item] }
      | [] =>
        match print_write s "%!MISSING".toList 0 with
        | none => none
        | some s1 => print_end_scan rest [] s1
    else
      match print_write s (c :: rest) 1 with
      | none => none
      | some s1 => print_end_scan rest i s1

/-- The `while (i)` loop of `print_end` over the surplus records. -/
def print_end_extra : List printer_item → printer_state → Option printer_state
  | [], s => some s
  | item :: next, s =>
    match print_write s item.typename 0 with
    | none => none
    | some s1 =>
      match print_write s1 "=".toList 0 with
      | none => none
      | some s2 =>
        match print_write s2 item.text 0 with
        | none => none
        | some s3 =>
          let s4 : printer_state := { s3 with freed := s3.freed ++ [item] }
          match (if next ≠ [] then print_write s4 ", ".toList 0 else some s4) with
          | none => none
          | some s5 => print_end_extra next s5

/-- The function `print_end`. -/
def print_end (s : printer_state) : Option printer_state :=
  match print_end_scan s.fmt s.head s with
  | none => none
  | some (i, s1) =>
    let r : Option printer_state :=
      if i ≠ [] then
        match print_write s1 "%!(EXTRA ".toList 0 with
        | none => none
        | some s2 =>
          match print_end_extra i s2 with
          | none => none
          | some s3 => print_write s3 ")".toList 0
      else some s1
    match r with
    | none => none
    | some s4 =>
      match s4.buf_end with
      | some e => some { s4 with mem := s4.mem.set e NUL, log := s4.log ++ [Event.term e] }
      | none => some s4

/-- The macro `PRINT_BEGIN(format)`: a zeroed state with the template set. The
world fields are the stream content so far (`file`) and the memory of a
destination buffer (`mem`). -/
def PRINT_BEGIN (format : List Char) (file mem : List Char) : printer_state :=
  { fmt := format, buf_end := none, buf := 0, file := file, head := [], mem := mem,
    log := [], freed := [] }

/-- The macro `PRINT_PUSH(x)`: the formatter is called with size 0 for the
length, storage of `len + 1` characters is allocated, the formatter fills it,
and the new record is linked at the tail of the queue. -/
def PRINT_PUSH (s : printer_state) (x : Arg) : printer_state :=
  let len := (x.formatter 0).2
  let item : printer_item :=
    { typename := x.typename, text := cstr ((x.formatter (len + 1)).1.take (len + 1)) }
  { s with head := s.head ++ [item] }

/-- The macro `fprint(f, format, ...)`; `print` is `fprint` on `stdout`. The
result is the final state, whose `file` is the content of the stream. -/
def fprint (f : List Char) (format : List Char) (args : List Arg) : Option printer_state :=
  let s := PRINT_BEGIN format f []
  print_end (args.foldl PRINT_PUSH s)

/-- The statements of `snprint` between its `size == 0` test and `PRINT_END`:
the bounded sink is selected (`s.buf = str`, `s.buf_end = str + size - 1`) and
every argument is pushed. -/
def snprint_setup (str : List Char) (size : Nat) (format : List Char) (args : List Arg) :
    printer_state :=
  let s := PRINT_BEGIN format [] str
  let s : printer_state := { s with buf := 0, buf_end := some (size - 1) }
  args.foldl PRINT_PUSH s

/-- The macro `snprint(str, size, format, ...)` on the buffer content `str`;
`size == 0` leaves the `do ... while(0)` block by `break`. -/
def snprint (str : List Char) (size : Nat) (format : List Char) (args : List Arg) :
    Option printer_state :=
  if size = 0 then some (PRINT_BEGIN format [] str)
  else print_end (snprint_setup str size format args)

/-- The marker written for a placeholder without a record. -/
def missing_marker : List Char := "%!MISSING".toList

/-- Specification side: the segments of a template (the literal texts between
its placeholders) joined again with one filler text in each gap. -/
def weave : List (List Char) → List (List Char) → List Char
  | [], _ => []
  | [seg], _ => seg
  | seg :: seg2 :: segs, [] => seg ++ weave (seg2 :: segs) []
  | seg :: seg2 :: segs, t :: ts => seg ++ t ++ weave (seg2 :: segs) ts

/-- Specification side: the texts that fill `k` placeholders from the queue
`recs`: the texts of the first `k` records, then the missing marker for every
placeholder that is left. -/
def fills (k : Nat) (recs : List printer_item) : List (List Char) :=
  (recs.take k).map (fun r => r.text) ++ List.replicate (k - recs.length) missing_marker

/-- Specification side: the item of a surplus record, `label=text`. -/
def extra_item (r : printer_item) : List Char :=
  r.typename ++ "=".toList ++ r.text

/-- Specification side: the extra-argument block for the surplus records. -/
def extra_block (recs : List printer_item) : List Char :=
  "%!(EXTRA ".toList ++ List.intercalate ", ".toList (recs.map extra_item) ++ ")".toList

/-- Specification side: the literal texts of a template, cut at every
placeholder character; a template with `k` placeholders has `k + 1` segments. -/
def segments : List Char → List (List Char)
  | [] => [[]]
  | c :: cs =>
    if c = '%' then [] :: segments cs
    else
      match segments cs with
      | [] => [[c]]
      | seg :: rest => (c :: seg) :: rest

/-- Specification side: the number of positions of `text` at which `pat`
occurs as a substring. -/
def occurrences (pat : List Char) : List Char → Nat
  | [] => if pat = [] then 1 else 0
  | c :: cs => (if pat.isPrefixOf (c :: cs) then 1 else 0) + occurrences pat cs

/-- The argument `1+2` of the examples: an `int`, formatted by `snprintf` with
`"%d"`, whose rendering is `3`. -/
def arg_int_3 : Arg := ⟨"int".toList, snprintf "3".toList⟩

/-- The `int` arguments `1` and `2` of the missing-argument example. -/
def arg_int_1 : Arg := ⟨"int".toList, snprintf "1".toList⟩

/-- See `arg_int_1`. -/
def arg_int_2 : Arg := ⟨"int".toList, snprintf "2".toList⟩

/-- The argument `"ok"`: a `char*`, formatted by `snprintf` with `"%s"`. -/
def arg_str_ok : Arg := ⟨"char*".toList, snprintf "ok".toList⟩

/-- The argument `"%!MISSING"`: a `char*` whose text is the marker itself. -/
def arg_str_marker : Arg := ⟨"char*".toList, snprintf "%!MISSING".toList⟩

/-- The state `print_end` receives in `print("%; %\n", 1+2, "ok")`. -/
def session_exact : printer_state :=
  [arg_int_3, arg_str_ok].foldl PRINT_PUSH (PRINT_BEGIN "%; %\n".toList [] [])

/-- The state `print_end` receives in `print("hi", 1+2, "ok")`. -/
def session_extra : printer_state :=
  [arg_int_3, arg_str_ok].foldl PRINT_PUSH (PRINT_BEGIN "hi".toList [] [])

/-- The state `print_end` receives in `print("% + % = %\n", 1, 2)`. -/
def session_missing : printer_state :=
  [arg_int_1, arg_int_2].foldl PRINT_PUSH (PRINT_BEGIN "% + % = %\n".toList [] [])

/-- The state `print_end` receives in `print("plain text\n")`. -/
def session_plain : printer_state :=
  PRINT_BEGIN "plain text\n".toList [] []

/-- The state `print_end` receives in `print("%%", "%!MISSING")`. -/
def session_marker_text : printer_state :=
  [arg_str_marker].foldl PRINT_PUSH (PRINT_BEGIN "%%".toList [] [])

/-- Specification side: an event of `print_write` that respects the end
offset `e` of a bounded sink: the write position stays below `e` at entry and
at return, and a store goes to an offset below `e - 1`. The terminator store
is not an event of `print_write`. -/
def Event.within (e : Nat) : Event → Prop
  | Event.call pos => pos < e
  | Event.store off _ => off + 1 < e
  | Event.ret pos => pos < e
  | Event.term _ => False

/-- Specification side: `t` is reached from `s` by calls of `print_write` on
the bounded sink with end offset `e`, all of them respecting `e`. -/
structure Within (e : Nat) (s t : printer_state) : Prop where
  buf_end : t.buf_end = some e
  pos : t.buf < e
  mono : s.buf ≤ t.buf
  len : t.mem.length = s.mem.length
  log : ∃ evs, t.log = s.log ++ evs ∧ ∀ ev ∈ evs, Event.within e ev

/-- The state of `snprint(buf, 1, "a")` on a one-character buffer when
`print_end` is entered. -/
def session_capacity_one : printer_state :=
  snprint_setup ['X'] 1 "a".toList []

/-- Specification side: the bounded session `b` with end offset `e` on a buffer
whose content was `init` mirrors the stream session `a` that started on an
empty stream: the write position is the length written to the stream, capped
at `e - 1`; the buffer holds that many characters of the stream content and,
from there on, its initial content; every store went below the position and
the terminator has not been stored. -/
structure Sim (e : Nat) (init : List Char) (a b : printer_state) : Prop where
  stream : a.buf_end = none
  bounded : b.buf_end = some e
  pos : b.buf = min a.file.length (e - 1)
  mem : b.mem = a.file.take b.buf ++ init.drop b.buf
  stores : ∀ off ch, Event.store off ch ∈ b.log → off < b.buf
  noterm : ∀ off, Event.term off ∉ b.log

/-- The C library's rendering of a format string that holds no conversion
other than `%%`, which stands for one percent sign. -/
def printf_literal : List Char → List Char
  | [] => []
  | [c] => [c]
  | c :: d :: rest =>
    if c = '%' ∧ d = '%' then '%' :: printf_literal rest
    else c :: printf_literal (d :: rest)

/-- The function `unknown_formatter(buf, size, ...)`, which is
`snprintf(buf, size, "%%!UNKNOWN")`; the variable argument `x` is never
read. -/
def unknown_formatter {α : Type} (_x : α) : printf_formatter_t :=
  snprintf (printf_literal "%%!UNKNOWN".toList)

/-- The static types the `_Generic` selections of `format.h` tell apart: the
types of `PRINT_DEFAULT_TYPES`, a type `T` registered in
`CFMT_CUSTOM_PRINT_TYPES` (given by its spelling), and `struct unprintable`. -/
inductive CType where
  | char | short | int | long | long_long
  | unsigned_int | unsigned_short | unsigned_long | unsigned_long_long
  | char_ptr | void_ptr | float | double | long_double
  | custom (spelling : List Char)
  | unprintable
deriving DecidableEq, Repr

/-- The macro `PRINT_FMT_STR(x)`: the format string of the type of `x` in
`PRINT_DEFAULT_TYPES`, and `NULL` by default. -/
def PRINT_FMT_STR : CType → Option (List Char)
  | CType.char => some "%c".toList
  | CType.short => some "%hd".toList
  | CType.int => some "%d".toList
  | CType.long => some "%ld".toList
  | CType.long_long => some "%lld".toList
  | CType.unsigned_int => some "%u".toList
  | CType.unsigned_short => some "%hu".toList
  | CType.unsigned_long => some "%lu".toList
  | CType.unsigned_long_long => some "%llu".toList
  | CType.char_ptr => some "%s".toList
  | CType.void_ptr => some "%p".toList
  | CType.float => some "%g".toList
  | CType.double => some "%g".toList
  | CType.long_double => some "%g".toList
  | _ => none

/-- The macro `PRINT_TYPE_NAME(x)`: the stringified type `#T` for the default
and the custom types, `"unknown"` for `struct unprintable`. -/
def PRINT_TYPE_NAME : CType → List Char
  | CType.char => "char".toList
  | CType.short => "short".toList
  | CType.int => "int".toList
  | CType.long => "long".toList
  | CType.long_long => "long long".toList
  | CType.unsigned_int => "unsigned int".toList
  | CType.unsigned_short => "unsigned short".toList
  | CType.unsigned_long => "unsigned long".toList
  | CType.unsigned_long_long => "unsigned long long".toList
  | CType.char_ptr => "char*".toList
  | CType.void_ptr => "void*".toList
  | CType.float => "float".toList
  | CType.double => "double".toList
  | CType.long_double => "long double".toList
  | CType.custom spelling => spelling
  | CType.unprintable => "unknown".toList

/-- A value passed to a print macro: its static type, its complete rendering
by the C library under the format string of that type (used for the default
types), and the behaviour on it of the formatter registered for that type
(used for the custom types). -/
structure Value where
  ty : CType
  libc_text : List Char
  custom : printf_formatter_t

/-- The macro `PRINT_FMT_FUNC(x)`: the registered formatter for a custom type,
`unknown_formatter` by default. -/
def PRINT_FMT_FUNC (x : Value) : printf_formatter_t :=
  match x.ty with
  | CType.custom _ => x.custom
  | _ => unknown_formatter x

/-- The selections `PRINT_PUSH(x)` makes for the value `x`: the label and the
formatter call, `snprintf` with the format string when there is one. -/
def PRINT_ARG (x : Value) : Arg :=
  { typename := PRINT_TYPE_NAME x.ty
    formatter :=
      match PRINT_FMT_STR x.ty with
      | some _ => snprintf x.libc_text
      | none => PRINT_FMT_FUNC x }

/-- The macro `print(format, ...)`: `s.file = stdout`, every value pushed,
then `print_end`. -/
def print (stdout : List Char) (format : List Char) (values : List Value) :
    Option printer_state :=
  let s := PRINT_BEGIN format stdout []
  print_end ((values.map PRINT_ARG).foldl PRINT_PUSH s)

/-- The content of `item->text` once `PRINT_PUSH(x)` has called the formatter
the second time: the characters it stored in the `len + 1` allocated ones. -/
def item_storage (x : Arg) : List Char :=
  (x.formatter ((x.formatter 0).2 + 1)).1.take ((x.formatter 0).2 + 1)

/-- The value `1+2` of the examples, an `int`. -/
def value_int_3 : Value := ⟨CType.int, "3".toList, unknown_formatter ()⟩

/-- The value `"ok"`, a `char*`. -/
def value_str_ok : Value := ⟨CType.char_ptr, "ok".toList, unknown_formatter ()⟩

/-- A `struct printer_item` in memory, with its `next` pointer; an address is
the number of the allocation, and `none` is `NULL`. -/
structure printer_cell where
  next : Option Nat
  typename : List Char
  text : List Char
deriving DecidableEq, Repr

/-- The queue at the level of pointers: the records allocated so far by
address, the addresses passed to `free` in order, and the members `head` and
`tail` of `struct printer_state`. -/
structure linked_state where
  cells : List printer_cell
  released : List Nat
  head : Option Nat
  tail : Option Nat
deriving DecidableEq, Repr

/-- The store `cells[t].next = p`. -/
def set_next : List printer_cell → Nat → Option Nat → List printer_cell
  | [], _, _ => []
  | c :: cs, 0, p => { c with next := p } :: cs
  | c :: cs, t + 1, p => c :: set_next cs t p

/-- The macro `PRINT_PUSH(x)` at the level of pointers: `malloc` yields a new
address, the record is filled with `next = NULL`, the label and the text, then
`if (s.tail) s.tail->next = item; if (!s.head) s.head = item;
s.tail = item;`. -/
def PRINT_PUSH_linked (q : linked_state) (x : Arg) : linked_state :=
  let len := (x.formatter 0).2
  let item := q.cells.length
  let cells := q.cells ++
    [{ next := none, typename := x.typename,
       text := cstr ((x.formatter (len + 1)).1.take (len + 1)) }]
  let cells :=
    match q.tail with
    | some t => set_next cells t (some item)
    | none => cells
  let head :=
    match q.head with
    | some h => some h
    | none => some item
  { q with cells := cells, head := head, tail := some item }

/-- Reading a member of the record at address `a`: a fault (`none`) when the
record has been released or was never allocated. -/
def load (q : linked_state) (a : Nat) : Option printer_cell :=
  if a ∈ q.released then none else q.cells[a]?

/-- The call `free(tmp)` for the record at address `a`: a fault (`none`) when
it has been released before or was never allocated. -/
def free_item (q : linked_state) (a : Nat) : Option linked_state :=
  if a ∈ q.released ∨ q.cells.length ≤ a then none
  else some { q with released := q.released ++ [a] }

/-- The `for` loop of `print_end` at the level of pointers: `i` is the pointer
into the queue; every access to a member of `*i` is a `load`. -/
def print_end_scan_linked :
    List Char → Option Nat → linked_state → printer_state →
      Option (Option Nat × linked_state × printer_state)
  | [], i, q, s => some (i, q, s)
  | c :: rest, i, q, s =>
    if c = '%' then
      match i with
      | some a =>
        match load q a with
        | none => none
        | some item =>
          match print_write s item.text 0 with
          | none => none
          | some s1 =>
            match load q a with
            | none => none
            | some tmp =>
              match free_item q a with
              | none => none
              | some q1 =>
                print_end_scan_linked rest tmp.next q1
                  { s1 with freed := s1.freed ++ [⟨item.typename, item.text⟩] }
      | none =>
        match print_write s "%!MISSING".toList 0 with
        | none => none
        | some s1 => print_end_scan_linked rest none q s1
    else
      match print_write s (c :: rest) 1 with
      | none => none
      | some s1 => print_end_scan_linked rest i q s1

/-- The `while (i)` loop of `print_end` at the level of pointers; the loop
follows `next`, so the model counts its iterations down from `fuel` and
yields `none` when the fuel runs out. -/
def print_end_extra_linked :
    Nat → Option Nat → linked_state → printer_state → Option (linked_state × printer_state)
  | _, none, q, s => some (q, s)
  | 0, some _, _, _ => none
  | fuel + 1, some a, q, s =>
    match load q a with
    | none => none
    | some item =>
      match print_write s item.typename 0 with
      | none => none
      | some s1 =>
        match print_write s1 "=".toList 0 with
        | none => none
        | some s2 =>
          match load q a with
          | none => none
          | some item2 =>
            match print_write s2 item2.text 0 with
            | none => none
            | some s3 =>
              match load q a with
              | none => none
              | some tmp =>
                match free_item q a with
                | none => none
                | some q1 =>
                  let s4 : printer_state :=
                    { s3 with freed := s3.freed ++ [⟨item.typename, item2.text⟩] }
                  match (if tmp.next ≠ none then print_write s4 ", ".toList 0 else some s4) with
                  | none => none
                  | some s5 => print_end_extra_linked fuel tmp.next q1 s5

/-- The function `print_end` at the level of pointers; the surplus loop gets
as much fuel as there are records allocated. -/
def print_end_linked (q : linked_state) (s : printer_state) :
    Option (linked_state × printer_state) :=
  match print_end_scan_linked s.fmt q.head q s with
  | none => none
  | some (i, q1, s1) =>
    let r : Option (linked_state × printer_state) :=
      if i ≠ none then
        match print_write s1 "%!(EXTRA ".toList 0 with
        | none => none
        | some s2 =>
          match print_end_extra_linked q1.cells.length i q1 s2 with
          | none => none
          | some (q2, s3) =>
            match print_write s3 ")".toList 0 with
            | none => none
            | some s4 => some (q2, s4)
      else some (q1, s1)
    match r with
    | none => none
    | some (q3, s4) =>
      match s4.buf_end with
      | some e =>
        some (q3, { s4 with mem := s4.mem.set e NUL, log := s4.log ++ [Event.term e] })
      | none => some (q3, s4)

/-- Specification side: from the pointer `p`, following `next`, the records at
the addresses `addrs` are met in this order, they carry the labels and texts
`recs`, and the last `next` is `NULL`. -/
def chain (cells : List printer_cell) : Option Nat → List Nat → List printer_item → Prop
  | p, [], [] => p = none
  | p, a :: as, r :: rs =>
    p = some a
      ∧ (cells[a]?).map (fun c => (c.typename, c.text)) = some (r.typename, r.text)
      ∧ chain cells ((cells[a]?).bind (fun c => c.next)) as rs
  | _, _, _ => False

/-- Specification side: the record `PRINT_PUSH(x)` creates. -/
def record_of (x : Arg) : printer_item :=
  { typename := x.typename, text := cstr (item_storage x) }

/-- Specification side: the records `recs` laid out from address `base` on,
each pointing to the next address and the last one to `NULL`. -/
def linked_cells (base : Nat) : List printer_item → List printer_cell
  | [] => []
  | [r] => [{ next := none, typename := r.typename, text := r.text }]
  | r :: r2 :: rs =>
    { next := some (base + 1), typename := r.typename, text := r.text }
      :: linked_cells (base + 1) (r2 :: rs)

/-- The queue `print("hi", 1+2, "ok")` builds, at the level of pointers. -/
def linked_extra : linked_state :=
  [arg_int_3, arg_str_ok].foldl PRINT_PUSH_linked ⟨[], [], none, none⟩

/-- The macro `PRINT_BEGIN` at the level of pointers: `head` and `tail` are
`NULL`; `cells` and `released` are the allocations made before. -/
def PRINT_BEGIN_linked (cells : List printer_cell) (released : List Nat) : linked_state :=
  { cells := cells, released := released, head := none, tail := none }

/-- The queue after `PRINT_BEGIN` and `PRINT_PUSH` of every argument in order,
at the level of pointers. -/
def linked_queue (cells : List printer_cell) (released : List Nat) (args : List Arg) :
    linked_state :=
  args.foldl PRINT_PUSH_linked (PRINT_BEGIN_linked cells released)

/-- The argument `(char)0`: a `char`, formatted by `snprintf` with `"%c"`,
whose complete rendering is the single character zero. -/
def arg_char_zero : Arg := ⟨"char".toList, snprintf [NUL]⟩

theorem print_write_stream (s : printer_state) (h : s.buf_end = none) (text : List Char)
    (len : Nat) :
    print_write s text len
      = some { s with file := s.file ++ (if len ≠ 0 then text.take len else text) } := by
  unfold print_write
  rw [h]
  by_cases hl : len = 0 <;> simp [hl]

theorem scan_literal (seg : List Char) (hseg : '%' ∉ seg) :
    ∀ (rest : List Char) (i : List printer_item) (s : printer_state), s.buf_end = none →
      print_end_scan (seg ++ rest) i s
        = print_end_scan rest i { s with file := s.file ++ seg } := by
  induction seg with
  | nil => intro rest i s _; simp
  | cons c cs ih =>
    intro rest i s hs
    have hc : c ≠ '%' := by
      intro h; apply hseg; simp [h]
    have hcs : '%' ∉ cs := by
      intro h; apply hseg; simp [h]
    rw [List.cons_append]
    simp only [print_end_scan, hc, if_false]
    rw [print_write_stream s hs]
    simp only [ne_eq, one_ne_zero, not_false_eq_true, if_true]
    refine (ih hcs rest i _ ?_).trans ?_
    · exact hs
    · simp

theorem fills_succ_cons (k : Nat) (r : printer_item) (rs : List printer_item) :
    fills (k + 1) (r :: rs) = r.text :: fills k rs := by
  simp [fills]

theorem fills_succ_nil (k : Nat) :
    fills (k + 1) [] = missing_marker :: fills k [] := by
  simp [fills, List.replicate_succ]

theorem scan_stream (segs : List (List Char)) :
    ∀ (recs : List printer_item) (s : printer_state), s.buf_end = none → segs ≠ [] →
      (∀ x ∈ segs, '%' ∉ x) →
      print_end_scan (List.intercalate ['%'] segs) recs s
        = some (recs.drop (segs.length - 1),
            { s with
              file := s.file ++ weave segs (fills (segs.length - 1) recs)
              freed := s.freed ++ recs.take (segs.length - 1) }) := by
  induction segs with
  | nil => intro _ _ _ h; exact absurd rfl h
  | cons seg rest ih =>
    intro recs s hs _ hseg
    cases rest with
    | nil =>
      have h1 : List.intercalate ['%'] [seg] = seg ++ [] := by
        simp [List.intercalate]
      rw [h1, scan_literal seg (hseg seg (by simp)) [] recs s hs]
      simp [print_end_scan, weave]
    | cons seg2 rest2 =>
      have h1 : List.intercalate ['%'] (seg :: seg2 :: rest2)
          = seg ++ '%' :: List.intercalate ['%'] (seg2 :: rest2) := by
        simp [List.intercalate]
      rw [h1, scan_literal seg (hseg seg (by simp)) _ recs s hs]
      have hrest : ∀ x ∈ seg2 :: rest2, '%' ∉ x := fun x hx => hseg x (by simp [hx])
      cases recs with
      | nil =>
        simp only [print_end_scan, if_true]
        rw [print_write_stream { s with file := s.file ++ seg } hs]
        simp only [ne_eq, not_true_eq_false, if_false]
        refine (ih [] _ ?_ (by simp) hrest).trans ?_
        · exact hs
        · simp [fills, weave, missing_marker, List.replicate_succ]
      | cons r rs =>
        simp only [print_end_scan, if_true]
        rw [print_write_stream { s with file := s.file ++ seg } hs]
        simp only [ne_eq, not_true_eq_false, if_false]
        refine (ih rs _ ?_ (by simp) hrest).trans ?_
        · exact hs
        · simp [fills, weave, List.map_take]

theorem segments_length (fmt : List Char) : (segments fmt).length = fmt.count '%' + 1 := by
  induction fmt with
  | nil => simp [segments]
  | cons c cs ih =>
    by_cases hc : c = '%'
    · subst hc; simp [segments, ih]
    · have hc2 : ¬ (c == '%') = true := by simpa using hc
      cases hseg : segments cs with
      | nil => rw [hseg] at ih; simp at ih
      | cons seg rest =>
        rw [hseg] at ih
        simp only [segments, hc, if_false, hseg, List.length_cons]
        rw [List.count_cons]
        simp only [hc2, if_false]
        simpa using ih

theorem segments_ne_nil (fmt : List Char) : segments fmt ≠ [] := by
  intro h
  have := segments_length fmt
  rw [h] at this
  simp at this

theorem segments_literal (fmt : List Char) : ∀ x ∈ segments fmt, '%' ∉ x := by
  induction fmt with
  | nil => intro x hx; simp [segments] at hx; simp [hx]
  | cons c cs ih =>
    intro x hx
    by_cases hc : c = '%'
    · simp only [segments, hc, if_true, List.mem_cons] at hx
      rcases hx with hx | hx
      · simp [hx]
      · exact ih x hx
    · cases hseg : segments cs with
      | nil => exact absurd hseg (segments_ne_nil cs)
      | cons seg rest =>
        rw [hseg] at ih
        simp only [segments, hc, if_false, hseg, List.mem_cons] at hx
        rcases hx with hx | hx
        · subst hx
          intro hmem
          rcases List.mem_cons.1 hmem with h | h
          · exact hc h.symm
          · exact ih seg (by simp) h
        · exact ih x (by simp [hx])

theorem intercalate_segments (fmt : List Char) :
    List.intercalate ['%'] (segments fmt) = fmt := by
  induction fmt with
  | nil => simp [segments, List.intercalate]
  | cons c cs ih =>
    cases hseg : segments cs with
    | nil => exact absurd hseg (segments_ne_nil cs)
    | cons seg rest =>
      rw [hseg] at ih
      by_cases hc : c = '%'
      · subst hc
        simp only [segments, if_true, hseg]
        rw [← ih]
        simp [List.intercalate]
      · simp only [segments, hc, if_false, hseg]
        rw [← ih]
        cases rest <;> simp [List.intercalate]

theorem extra_stream (recs : List printer_item) :
    ∀ (s : printer_state), s.buf_end = none →
      print_end_extra recs s
        = some { s with
            file := s.file ++ List.intercalate ", ".toList (recs.map extra_item)
            freed := s.freed ++ recs } := by
  induction recs with
  | nil => intro s _; simp [print_end_extra, List.intercalate]
  | cons r rs ih =>
    intro s hs
    simp only [print_end_extra]
    rw [print_write_stream s hs]
    simp only [ne_eq, not_true_eq_false, if_false]
    rw [print_write_stream { s with file := s.file ++ r.typename } hs]
    simp only [ne_eq, not_true_eq_false, if_false]
    rw [print_write_stream { s with file := s.file ++ r.typename ++ "=".toList } hs]
    simp only [ne_eq, not_true_eq_false, if_false]
    cases rs with
    | nil =>
      simp only [ne_eq, not_true_eq_false, if_false]
      refine (ih _ ?_).trans ?_
      · exact hs
      · simp [List.intercalate, extra_item]
    | cons r2 rs2 =>
      simp only [ne_eq, reduceCtorEq, not_false_eq_true, if_true]
      rw [print_write_stream
        { s with file := s.file ++ r.typename ++ "=".toList ++ r.text, freed := s.freed ++ [r] } hs]
      simp only [ne_eq, not_true_eq_false, if_false]
      refine (ih _ ?_).trans ?_
      · exact hs
      · simp [List.intercalate, extra_item]

/-- What `print_end` does on a stream sink, for every template and every
queue: the template is written with its placeholders filled, then the block of
the surplus records if there are any; every record is released. -/
theorem print_end_stream (s : printer_state) (hs : s.buf_end = none) :
    print_end s
      = some { s with
          file := s.file ++ weave (segments s.fmt) (fills (s.fmt.count '%') s.head)
            ++ (if s.head.drop (s.fmt.count '%') ≠ [] then
                  extra_block (s.head.drop (s.fmt.count '%')) else [])
          freed := s.freed ++ s.head } := by
  have hscan := scan_stream (segments s.fmt) s.head s hs (segments_ne_nil _) (segments_literal _)
  rw [intercalate_segments, segments_length] at hscan
  simp only [Nat.add_sub_cancel] at hscan
  unfold print_end
  rw [hscan]
  by_cases hd : s.head.drop (s.fmt.count '%') = []
  · simp only [hd, ne_eq, not_true_eq_false, if_false, hs, List.append_nil]
    have ht : s.head.take (s.fmt.count '%') = s.head := by
      have := List.take_append_drop (s.fmt.count '%') s.head
      rw [hd, List.append_nil] at this
      exact this
    rw [ht]
  · simp only [hd, ne_eq, not_false_eq_true, if_true]
    simp [print_write_stream, extra_stream, hs, extra_block, List.append_assoc]

theorem print_end_stream_missing (s : printer_state) (hs : s.buf_end = none)
    (hk : s.head.length < s.fmt.count '%') :
    (print_end s).map (fun t => t.file)
      = some (s.file
          ++ weave (segments s.fmt)
              (s.head.map (fun r => r.text)
                ++ List.replicate (s.fmt.count '%' - s.head.length) "%!MISSING".toList)) := by
  rw [print_end_stream s hs]
  have hd : s.head.drop (s.fmt.count '%') = [] := by
    apply List.drop_eq_nil_of_le; omega
  have ht : s.head.take (s.fmt.count '%') = s.head := by
    apply List.take_of_length_le; omega
  simp [hd, fills, ht, missing_marker]

theorem occurrences_literal_append (a : List Char) (ha : '%' ∉ a) (b : List Char) :
    occurrences missing_marker (a ++ b) = occurrences missing_marker b := by
  induction a with
  | nil => simp
  | cons c cs ih =>
    have hc : c ≠ '%' := by
      intro h; apply ha; simp [h]
    have hcs : '%' ∉ cs := by
      intro h; apply ha; simp [h]
    have hc2 : ¬ ('%' = c) := fun h => hc h.symm
    rw [List.cons_append]
    simp only [occurrences]
    rw [ih hcs]
    simp [missing_marker, hc2]

theorem occurrences_marker_append (b : List Char) :
    occurrences missing_marker (missing_marker ++ b) = 1 + occurrences missing_marker b := by
  have h := occurrences_literal_append "!MISSING".toList (by decide) b
  have hm : missing_marker ++ b = '%' :: ("!MISSING".toList ++ b) := by
    simp [missing_marker]
  have key : ∀ t : List Char, occurrences missing_marker ('%' :: t)
      = (if missing_marker.isPrefixOf ('%' :: t) then 1 else 0)
        + occurrences missing_marker t := fun t => rfl
  rw [hm, key, h]
  simp [missing_marker]

theorem occurrences_weave (segs : List (List Char)) :
    ∀ (fs : List (List Char)), (∀ x ∈ segs, '%' ∉ x) →
      (∀ f ∈ fs, '%' ∉ f ∨ f = missing_marker) →
      occurrences missing_marker (weave segs fs)
        = (fs.take (segs.length - 1)).count missing_marker := by
  induction segs with
  | nil => intro fs _ _; simp [weave, occurrences, missing_marker]
  | cons seg rest ih =>
    intro fs hseg hfs
    have hrest : ∀ x ∈ rest, '%' ∉ x := fun x hx => hseg x (by simp [hx])
    cases rest with
    | nil =>
      have := occurrences_literal_append seg (hseg seg (by simp)) []
      simp only [List.append_nil] at this
      simp only [weave]
      rw [this]
      simp [occurrences, missing_marker]
    | cons seg2 rest2 =>
      cases fs with
      | nil =>
        simp only [weave]
        rw [occurrences_literal_append seg (hseg seg (by simp)), ih [] hrest (by simp)]
        simp
      | cons f fs2 =>
        have hfs2 : ∀ g ∈ fs2, '%' ∉ g ∨ g = missing_marker := fun g hg => hfs g (by simp [hg])
        simp only [weave, List.append_assoc]
        rw [occurrences_literal_append seg (hseg seg (by simp))]
        rcases hfs f (by simp) with hf | hf
        · have hne : f ≠ missing_marker := by
            intro h; apply hf; rw [h]; decide
          have hne2 : ¬ (f == missing_marker) = true := by simpa using hne
          rw [occurrences_literal_append f hf, ih fs2 hrest hfs2]
          simp [List.count_cons, hne2]
        · subst hf
          rw [occurrences_marker_append, ih fs2 hrest hfs2]
          simp [List.count_cons]
          omega

theorem memcpy_length (src : List Char) :
    ∀ (n : Nat) (mem : List Char) (dst : Nat), (memcpy mem dst src n).length = mem.length := by
  induction src with
  | nil => intro n mem dst; cases n <;> simp [memcpy]
  | cons c cs ih =>
    intro n mem dst
    cases n with
    | zero => simp [memcpy]
    | succ n => simp [memcpy, ih]

theorem memcpy_log_within (e : Nat) (src : List Char) :
    ∀ (n dst : Nat), dst + n < e → ∀ ev ∈ memcpy_log dst src n, Event.within e ev := by
  induction src with
  | nil => intro n dst _ ev hev; cases n <;> simp [memcpy_log] at hev
  | cons c cs ih =>
    intro n dst hlt ev hev
    cases n with
    | zero => simp [memcpy_log] at hev
    | succ n =>
      simp only [memcpy_log, List.mem_cons] at hev
      rcases hev with hev | hev
      · subst hev
        show dst + 1 < e
        omega
      · exact ih n (dst + 1) (by omega) ev hev

/-- On a bounded sink whose write position is below the end offset,
`print_write` passes both assertions and copies the first
`min (e - buf - 1) len` characters. -/
theorem print_write_bounded (s : printer_state) (e : Nat) (he : s.buf_end = some e)
    (hb : s.buf < e) (text : List Char) (len : Nat) :
    print_write s text len
      = some { s with
          mem := memcpy s.mem s.buf text
            (min (e - s.buf - 1) (if len = 0 then text.length else len))
          buf := s.buf + min (e - s.buf - 1) (if len = 0 then text.length else len)
          log := s.log ++ Event.call s.buf
            :: memcpy_log s.buf text
                (min (e - s.buf - 1) (if len = 0 then text.length else len))
            ++ [Event.ret
                (s.buf + min (e - s.buf - 1) (if len = 0 then text.length else len))] } := by
  unfold print_write
  rw [he]
  generalize hl : (if len = 0 then text.length else len) = l
  have hn : (if e - s.buf - 1 > l then l else e - s.buf - 1) = min (e - s.buf - 1) l := by
    by_cases h : e - s.buf - 1 > l
    · rw [if_pos h]; omega
    · rw [if_neg h]; omega
  have h2 : e > s.buf + min (e - s.buf - 1) l := by omega
  simp only [hl, hn, hb, h2, gt_iff_lt, not_true_eq_false, if_false]

theorem print_write_within (s : printer_state) (e : Nat) (he : s.buf_end = some e)
    (hb : s.buf < e) (text : List Char) (len : Nat) :
    ∃ t, print_write s text len = some t ∧ Within e s t := by
  refine ⟨_, print_write_bounded s e he hb text len, ?_⟩
  refine ⟨he, ?_, ?_, ?_, ?_⟩
  · show s.buf + min (e - s.buf - 1) _ < e
    omega
  · show s.buf ≤ s.buf + min (e - s.buf - 1) _
    omega
  · exact memcpy_length _ _ _ _
  · refine ⟨_, List.append_assoc _ _ _, ?_⟩
    intro ev hev
    simp only [List.mem_cons, List.mem_append, List.not_mem_nil, or_false] at hev
    rcases hev with (hev | hev) | hev
    · subst hev; exact hb
    · exact memcpy_log_within e text _ s.buf (by omega) ev hev
    · subst hev
      show s.buf + min (e - s.buf - 1) _ < e
      omega

theorem Within.refl_of (e : Nat) (s : printer_state) (he : s.buf_end = some e)
    (hb : s.buf < e) : Within e s s :=
  ⟨he, hb, Nat.le_refl _, rfl, [], by simp, by simp⟩

theorem Within.trans_of {e : Nat} {s t u : printer_state} (h1 : Within e s t)
    (h2 : Within e t u) : Within e s u := by
  obtain ⟨ev1, hl1, hw1⟩ := h1.log
  obtain ⟨ev2, hl2, hw2⟩ := h2.log
  refine ⟨h2.buf_end, h2.pos, Nat.le_trans h1.mono h2.mono, h2.len.trans h1.len,
    ev1 ++ ev2, ?_, ?_⟩
  · rw [hl2, hl1, List.append_assoc]
  · intro ev hev
    rcases List.mem_append.1 hev with h | h
    · exact hw1 ev h
    · exact hw2 ev h

theorem Within.free {e : Nat} {s t : printer_state} (h : Within e s t)
    (item : printer_item) : Within e s { t with freed := t.freed ++ [item] } :=
  ⟨h.buf_end, h.pos, h.mono, h.len, h.log⟩

theorem scan_within (e : Nat) (c : List Char) :
    ∀ (i : List printer_item) (s : printer_state), s.buf_end = some e → s.buf < e →
      ∃ j t, print_end_scan c i s = some (j, t) ∧ Within e s t := by
  induction c with
  | nil => intro i s he hb; exact ⟨i, s, rfl, Within.refl_of e s he hb⟩
  | cons ch rest ih =>
    intro i s he hb
    by_cases hc : ch = '%'
    · cases i with
      | nil =>
        obtain ⟨t, ht, hw⟩ := print_write_within s e he hb "%!MISSING".toList 0
        obtain ⟨j, u, hu, hw2⟩ := ih [] t hw.buf_end hw.pos
        refine ⟨j, u, ?_, hw.trans_of hw2⟩
        simp only [print_end_scan, hc, if_true, ht, hu]
      | cons item next =>
        obtain ⟨t, ht, hw⟩ := print_write_within s e he hb item.text 0
        have hw1 := hw.free item
        obtain ⟨j, u, hu, hw2⟩ := ih next _ hw1.buf_end hw1.pos
        refine ⟨j, u, ?_, hw1.trans_of hw2⟩
        simp only [print_end_scan, hc, if_true, ht, hu]
    · obtain ⟨t, ht, hw⟩ := print_write_within s e he hb (ch :: rest) 1
      obtain ⟨j, u, hu, hw2⟩ := ih i t hw.buf_end hw.pos
      refine ⟨j, u, ?_, hw.trans_of hw2⟩
      simp only [print_end_scan, hc, if_false, ht, hu]

theorem extra_within (e : Nat) (i : List printer_item) :
    ∀ (s : printer_state), s.buf_end = some e → s.buf < e →
      ∃ t, print_end_extra i s = some t ∧ Within e s t := by
  induction i with
  | nil => intro s he hb; exact ⟨s, rfl, Within.refl_of e s he hb⟩
  | cons item next ih =>
    intro s he hb
    obtain ⟨t1, ht1, hw1⟩ := print_write_within s e he hb item.typename 0
    obtain ⟨t2, ht2, hw2⟩ := print_write_within t1 e hw1.buf_end hw1.pos "=".toList 0
    obtain ⟨t3, ht3, hw3⟩ := print_write_within t2 e hw2.buf_end hw2.pos item.text 0
    have hw4 := ((hw1.trans_of hw2).trans_of hw3).free item
    by_cases hn : next = []
    · obtain ⟨u, hu, hw5⟩ := ih _ hw4.buf_end hw4.pos
      refine ⟨u, ?_, hw4.trans_of hw5⟩
      simp only [print_end_extra, ht1, ht2, ht3, hn, ne_eq, not_true_eq_false, if_false]
      rw [hn] at hu
      exact hu
    · obtain ⟨t5, ht5, hw5⟩ := print_write_within _ e hw4.buf_end hw4.pos ", ".toList 0
      obtain ⟨u, hu, hw6⟩ := ih t5 hw5.buf_end hw5.pos
      refine ⟨u, ?_, (hw4.trans_of hw5).trans_of hw6⟩
      simp only [print_end_extra, ht1, ht2, ht3, hn, ne_eq, not_false_eq_true, if_true, ht5, hu]

/-- On a bounded sink whose write position is below the end offset `e`,
`print_end` returns: every `print_write` respects `e`, and the last action is
the terminator store at `e`. -/
theorem print_end_within (e : Nat) (s : printer_state) (he : s.buf_end = some e)
    (hb : s.buf < e) :
    ∃ u, Within e s u
      ∧ print_end s = some { u with mem := u.mem.set e NUL, log := u.log ++ [Event.term e] } := by
  obtain ⟨j, t, ht, hw⟩ := scan_within e s.fmt s.head s he hb
  by_cases hj : j = []
  · refine ⟨t, hw, ?_⟩
    simp only [print_end, ht, hj, ne_eq, not_true_eq_false, if_false, hw.buf_end]
  · obtain ⟨t2, ht2, hw2⟩ := print_write_within t e hw.buf_end hw.pos "%!(EXTRA ".toList 0
    obtain ⟨t3, ht3, hw3⟩ := extra_within e j t2 hw2.buf_end hw2.pos
    obtain ⟨t4, ht4, hw4⟩ := print_write_within t3 e hw3.buf_end hw3.pos ")".toList 0
    refine ⟨t4, ((hw.trans_of hw2).trans_of hw3).trans_of hw4, ?_⟩
    simp only [print_end, ht, hj, ne_eq, not_false_eq_true, if_true, ht2, ht3, ht4, hw4.buf_end]

theorem foldl_PRINT_PUSH_sink (args : List Arg) :
    ∀ (s : printer_state),
      (args.foldl PRINT_PUSH s).buf_end = s.buf_end ∧ (args.foldl PRINT_PUSH s).buf = s.buf
        ∧ (args.foldl PRINT_PUSH s).mem = s.mem ∧ (args.foldl PRINT_PUSH s).log = s.log
        ∧ (args.foldl PRINT_PUSH s).fmt = s.fmt := by
  induction args with
  | nil => intro s; simp
  | cons a as ih =>
    intro s
    simp only [List.foldl_cons]
    have := ih (PRINT_PUSH s a)
    simpa [PRINT_PUSH] using this

/-- For every capacity of at least two, `snprint` returns; its log is the
events of `print_write` calls that respect the end offset `size - 1`, followed
by the terminator store at `size - 1`. -/
theorem snprint_within (str : List Char) (size : Nat) (hsize : 2 ≤ size)
    (format : List Char) (args : List Arg) :
    ∃ (u : printer_state) (evs : List Event), snprint str size format args
        = some { u with mem := u.mem.set (size - 1) NUL,
                        log := u.log ++ [Event.term (size - 1)] }
      ∧ u.log = evs ∧ (∀ ev ∈ evs, Event.within (size - 1) ev)
      ∧ u.mem.length = str.length := by
  have hsetup := foldl_PRINT_PUSH_sink args
    { PRINT_BEGIN format [] str with buf := 0, buf_end := some (size - 1) }
  obtain ⟨h1, h2, h3, h4, _⟩ := hsetup
  have he : (snprint_setup str size format args).buf_end = some (size - 1) := h1
  have hb : (snprint_setup str size format args).buf < size - 1 := by
    have : (snprint_setup str size format args).buf = 0 := h2
    omega
  obtain ⟨u, hw, hu⟩ := print_end_within (size - 1) _ he hb
  obtain ⟨evs, hlog, hev⟩ := hw.log
  have hlog0 : (snprint_setup str size format args).log = [] := h4
  have hmem0 : (snprint_setup str size format args).mem = str := h3
  refine ⟨u, evs, ?_, ?_, hev, ?_⟩
  · have hne : size ≠ 0 := by omega
    simp only [snprint, hne, if_false]
    exact hu
  · rw [hlog, hlog0]; simp
  · rw [hw.len, hmem0]

/-- C1. On a stream sink, when the queue holds exactly as many records as the
template has placeholders, `print_end` writes the literal segments of the
template in order with the text of the i-th record in the i-th gap, and
nothing else: no missing marker and no extra block. The record texts are
arbitrary. -/
theorem print_end_exact_fill (s : printer_state) (hs : s.buf_end = none)
    (hk : s.head.length = s.fmt.count '%') :
    (print_end s).map (fun t => t.file)
      = some (s.file ++ weave (segments s.fmt) (s.head.map (fun r => r.text))) := by
  rw [print_end_stream s hs]
  have hd : s.head.drop (s.fmt.count '%') = [] := by
    rw [← hk]; simp
  simp [hd, fills, ← hk]

theorem print_end_exact_fill_witness :
    (print_end session_exact).map (fun t => t.file) = some "3; ok\n".toList :=
  (print_end_exact_fill session_exact (by decide) (by decide)).trans (by decide)

/-- C2. On a stream sink, when the queue holds more records than the template
has placeholders (`k`), `print_end` writes the template filled with the first
`k` records and then, at the very end, one block `%!(EXTRA ` items `)` whose
items are the remaining records in order, each `typename=text`, joined by
`, `. -/
theorem print_end_extra_block (s : printer_state) (hs : s.buf_end = none)
    (hk : s.fmt.count '%' < s.head.length) :
    (print_end s).map (fun t => t.file)
      = some (s.file
          ++ weave (segments s.fmt) ((s.head.take (s.fmt.count '%')).map (fun r => r.text))
          ++ ("%!(EXTRA ".toList
              ++ List.intercalate ", ".toList
                  ((s.head.drop (s.fmt.count '%')).map
                    (fun r => r.typename ++ "=".toList ++ r.text))
              ++ ")".toList)) := by
  rw [print_end_stream s hs]
  have hd : s.head.drop (s.fmt.count '%') ≠ [] := by
    intro h
    have := congrArg List.length h
    simp at this
    omega
  have h0 : s.fmt.count '%' - s.head.length = 0 := by omega
  have hfun : extra_item = fun r => r.typename ++ "=".toList ++ r.text := by
    funext r; rfl
  simp [hd, fills, h0, extra_block, hfun]

theorem print_end_extra_block_witness :
    (print_end session_extra).map (fun t => t.file)
      = some "hi%!(EXTRA int=3, char*=ok)".toList :=
  (print_end_extra_block session_extra (by decide) (by decide)).trans (by decide)

/-- C3. On a stream sink, when the queue holds fewer records (`m`) than the
template has placeholders (`k`), `print_end` returns normally and writes the
template with its first `m` placeholders filled by the record texts in order
and every remaining placeholder replaced in place by `%!MISSING`; nothing is
appended. -/
theorem print_end_missing_markers (s : printer_state) (hs : s.buf_end = none)
    (hk : s.head.length < s.fmt.count '%') :
    (print_end s).map (fun t => t.file)
      = some (s.file
          ++ weave (segments s.fmt)
              (s.head.map (fun r => r.text)
                ++ List.replicate (s.fmt.count '%' - s.head.length) "%!MISSING".toList)) :=
  print_end_stream_missing s hs hk

theorem print_end_missing_markers_witness :
    (print_end session_missing).map (fun t => t.file)
      = some "1 + 2 = %!MISSING\n".toList :=
  (print_end_missing_markers session_missing (by decide) (by decide)).trans (by decide)

/-- C8. On a stream sink, a template without a placeholder character rendered
with an empty queue is written exactly, with nothing appended. -/
theorem print_end_plain_template (s : printer_state) (hs : s.buf_end = none)
    (hfmt : '%' ∉ s.fmt) (hq : s.head = []) :
    (print_end s).map (fun t => t.file) = some (s.file ++ s.fmt) := by
  rw [print_end_stream s hs]
  have hc : s.fmt.count '%' = 0 := List.count_eq_zero.2 hfmt
  have hlen := segments_length s.fmt
  have hint := intercalate_segments s.fmt
  rw [hc] at hlen
  cases hseg : segments s.fmt with
  | nil => exact absurd hseg (segments_ne_nil _)
  | cons seg rest =>
    rw [hseg] at hlen hint
    cases rest with
    | cons _ _ => simp at hlen
    | nil =>
      have hx : seg = s.fmt := by simpa [List.intercalate] using hint
      simp [hq, hc, weave, hx]

theorem print_end_plain_template_witness :
    (print_end session_plain).map (fun t => t.file) = some "plain text\n".toList :=
  (print_end_plain_template session_plain (by decide) (by decide) (by decide)).trans (by decide)

/-- C10, as stated, fails: in `print("%%", "%!MISSING")` the template has two
placeholders and the queue one record, and the output holds the marker twice,
once as the text of the record and once for the placeholder left over. -/
theorem missing_count_counterexample :
    session_marker_text.buf_end = none
      ∧ session_marker_text.head.length < session_marker_text.fmt.count '%'
      ∧ (print_end session_marker_text).map (fun t => occurrences "%!MISSING".toList t.file)
          = some 2
      ∧ session_marker_text.fmt.count '%' - session_marker_text.head.length = 1 := by
  decide

/-- C10, amended. On a stream sink, when the queue holds fewer records (`m`)
than the template has placeholders (`k`) and no record text contains the
placeholder character, the text `print_end` appends to the stream holds the
substring `%!MISSING` exactly `k - m` times. -/
theorem missing_count_literal_texts (s : printer_state) (hs : s.buf_end = none)
    (hk : s.head.length < s.fmt.count '%') (htext : ∀ r ∈ s.head, '%' ∉ r.text) :
    ∃ out, (print_end s).map (fun t => t.file) = some (s.file ++ out)
      ∧ occurrences "%!MISSING".toList out = s.fmt.count '%' - s.head.length := by
  refine ⟨_, print_end_stream_missing s hs hk, ?_⟩
  have hfs : ∀ f ∈ s.head.map (fun r => r.text)
      ++ List.replicate (s.fmt.count '%' - s.head.length) "%!MISSING".toList,
      '%' ∉ f ∨ f = missing_marker := by
    intro f hf
    rcases List.mem_append.1 hf with h | h
    · obtain ⟨r, hr, rfl⟩ := List.mem_map.1 h
      exact Or.inl (htext r hr)
    · exact Or.inr (List.eq_of_mem_replicate h)
  have hocc := occurrences_weave (segments s.fmt) _ (segments_literal s.fmt) hfs
  rw [segments_length] at hocc
  have hlen : (s.head.map (fun r => r.text)
      ++ List.replicate (s.fmt.count '%' - s.head.length) "%!MISSING".toList).length
      ≤ s.fmt.count '%' + 1 - 1 := by
    simp; omega
  rw [List.take_of_length_le hlen] at hocc
  have hzero : (s.head.map (fun r => r.text)).count missing_marker = 0 := by
    apply List.count_eq_zero.2
    intro hmem
    obtain ⟨r, hr, hrt⟩ := List.mem_map.1 hmem
    apply htext r hr
    rw [hrt]; decide
  have hm : ("%!MISSING".toList : List Char) = missing_marker := rfl
  rw [hm] at hocc ⊢
  rw [hocc, List.count_append, hzero]
  simp

theorem missing_count_literal_texts_witness :
    ∃ out, (print_end session_missing).map (fun t => t.file) = some (session_missing.file ++ out)
      ∧ occurrences "%!MISSING".toList out
          = session_missing.fmt.count '%' - session_missing.head.length :=
  missing_count_literal_texts session_missing (by decide) (by decide) (by decide)

/-- For every capacity of at least two, `snprint` returns, no byte is stored
at an offset of `size - 1` or beyond by `print_write`, the terminator goes to
offset `size - 1`, and that offset holds zero afterwards when the buffer has
`size` characters. -/
theorem snprint_safe_from_two (str : List Char) (size : Nat) (hsize : 2 ≤ size)
    (format : List Char) (args : List Arg) :
    ∃ t, snprint str size format args = some t
      ∧ (∀ off ch, Event.store off ch ∈ t.log → off + 1 < size - 1)
      ∧ (∀ pos, Event.call pos ∈ t.log ∨ Event.ret pos ∈ t.log → pos + 1 ≤ size - 1)
      ∧ (∀ off, Event.term off ∈ t.log → off = size - 1)
      ∧ (size ≤ str.length → t.mem.get? (size - 1) = some NUL) := by
  obtain ⟨u, evs, hu, hlog, hev, hlen⟩ := snprint_within str size hsize format args
  refine ⟨_, hu, ?_, ?_, ?_, ?_⟩
  · intro off ch hmem
    simp only [hlog, List.mem_append, List.mem_singleton, reduceCtorEq, or_false] at hmem
    exact hev _ hmem
  · intro pos hmem
    simp only [hlog, List.mem_append, List.mem_singleton, reduceCtorEq, or_false] at hmem
    rcases hmem with h | h
    · exact hev _ h
    · exact hev _ h
  · intro off hmem
    simp only [hlog, List.mem_append, List.mem_singleton, Event.term.injEq] at hmem
    rcases hmem with h | h
    · exact absurd (hev _ h) (by simp [Event.within])
    · exact h
  · intro hle
    have hlt : size - 1 < u.mem.length := by omega
    simp [List.getElem?_set, hlt]

/-- C4 fails at capacity one: in `snprint(buf, 1, "a")` the first
`print_write` call finds `buf_end == buf`, its assertion fails and the call
does not return. -/
theorem snprint_capacity_one_aborts :
    snprint ['X'] 1 "a".toList [] = none := by
  decide

/-- C5 fails: `snprint(buf, 5, "hi", 1+2, "ok")` on a buffer filled with `X`
stores `h`, `i`, `%` at offsets 0 to 2 and the terminator at offset 4; offset 3
is never written and keeps its `X`. -/
theorem snprint_capacity_five_content :
    (snprint "XXXXX".toList 5 "hi".toList [arg_int_3, arg_str_ok]).map (fun t => t.mem)
      = some ['h', 'i', '%', 'X', NUL] := by
  decide

/-- C7. With capacity zero `snprint` returns at once for every template and
every argument list: the buffer is unchanged, no byte and no terminator is
stored, `print_write` is never called, and no record has been created or
released. -/
theorem snprint_zero_capacity (str : List Char) (format : List Char) (args : List Arg) :
    ∃ t, snprint str 0 format args = some t
      ∧ t.mem = str ∧ t.log = [] ∧ t.head = [] ∧ t.freed = [] :=
  ⟨PRINT_BEGIN format [] str, rfl, rfl, rfl, rfl, rfl⟩

/-- C9 fails at capacity one: when `print_end` is entered in
`snprint(buf, 1, "a")` the write position and the end offset are both 0, so
the position is not below the end before the first `print_write` call, whose
assertion fails. -/
theorem capacity_one_position_at_end :
    session_capacity_one.buf_end = some 0 ∧ session_capacity_one.buf = 0
      ∧ print_write session_capacity_one session_capacity_one.fmt 1 = none := by
  decide

theorem take_succ_set (mem : List Char) (dst : Nat) (c : Char) (hd : dst < mem.length) :
    (mem.set dst c).take (dst + 1) = mem.take dst ++ [c] := by
  rw [List.take_succ, List.set_take, List.set_eq_of_length_le (by simp)]
  simp [List.getElem?_set, hd]

theorem memcpy_eq (src : List Char) :
    ∀ (n : Nat) (mem : List Char) (dst : Nat), n ≤ src.length → dst + n ≤ mem.length →
      memcpy mem dst src n = mem.take dst ++ src.take n ++ mem.drop (dst + n) := by
  induction src with
  | nil =>
    intro n mem dst hn _
    have : n = 0 := by simpa using hn
    subst this
    simp [memcpy]
  | cons c cs ih =>
    intro n mem dst hn hm
    cases n with
    | zero => simp [memcpy]
    | succ n =>
      simp only [memcpy]
      rw [ih n (mem.set dst c) (dst + 1) (by simpa using hn) (by simp; omega)]
      have hd : dst < mem.length := by omega
      rw [take_succ_set mem dst c hd, List.drop_set_of_lt c mem (by omega)]
      have : dst + 1 + n = dst + (n + 1) := by omega
      rw [this]
      simp
theorem memcpy_log_mem (src : List Char) :
    ∀ (n dst : Nat) (ev : Event), ev ∈ memcpy_log dst src n →
      ∃ off ch, ev = Event.store off ch ∧ dst ≤ off ∧ off < dst + n := by
  induction src with
  | nil => intro n dst ev hev; cases n <;> simp [memcpy_log] at hev
  | cons c cs ih =>
    intro n dst ev hev
    cases n with
    | zero => simp [memcpy_log] at hev
    | succ n =>
      simp only [memcpy_log, List.mem_cons] at hev
      rcases hev with hev | hev
      · exact ⟨dst, c, hev, Nat.le_refl _, by omega⟩
      · obtain ⟨off, ch, h1, h2, h3⟩ := ih n (dst + 1) ev hev
        exact ⟨off, ch, h1, by omega, by omega⟩

theorem sim_write {e : Nat} {init : List Char} {a b : printer_state} (h : Sim e init a b)
    (he : 1 ≤ e) (hi : e < init.length) (text : List Char) (len : Nat)
    (hlen : len ≤ text.length) :
    ∃ a1 b1, print_write a text len = some a1 ∧ print_write b text len = some b1
      ∧ Sim e init a1 b1 ∧ a1.head = a.head ∧ b1.head = b.head := by
  have hpos := h.pos
  have hb : b.buf < e := by omega
  refine ⟨_, _, print_write_stream a h.stream text len,
    print_write_bounded b e h.bounded hb text len, ?_, rfl, rfl⟩
  generalize hl : (if len = 0 then text.length else len) = l
  have hw : (a.file ++ (if len ≠ 0 then text.take len else text)).length = a.file.length + l := by
    by_cases h0 : len = 0
    · subst hl; simp [h0]
    · subst hl; simp [h0, Nat.min_eq_left hlen]
  have hwt : ∀ k, k ≤ l → (if len ≠ 0 then text.take len else text).take k = text.take k := by
    intro k hk
    by_cases h0 : len = 0
    · simp [h0]
    · have : l = len := by subst hl; simp [h0]
      simp only [ne_eq, h0, not_false_eq_true, if_true, List.take_take]
      rw [Nat.min_eq_left (by omega)]
  have hl2 : l ≤ text.length := by
    by_cases h0 : len = 0
    · subst hl; simp [h0]
    · subst hl; simp [h0, hlen]
  refine ⟨h.stream, h.bounded, ?_, ?_, ?_, ?_⟩
  · show b.buf + min (e - b.buf - 1) l = min (a.file ++ _).length (e - 1)
    rw [hw]; omega
  · show memcpy b.mem b.buf text (min (e - b.buf - 1) l)
        = (a.file ++ _).take (b.buf + min (e - b.buf - 1) l)
          ++ init.drop (b.buf + min (e - b.buf - 1) l)
    have hblen : b.mem.length = init.length := by
      rw [h.mem]; simp; omega
    rw [memcpy_eq text _ b.mem b.buf (by omega) (by omega)]
    have h1 : b.mem.take b.buf = a.file.take b.buf := by
      rw [h.mem, List.take_append_of_le_length (by simp; omega)]
      simp
    have h2 : b.mem.drop (b.buf + min (e - b.buf - 1) l)
        = init.drop (b.buf + min (e - b.buf - 1) l) := by
      have hlt : (a.file.take b.buf).length = b.buf := by simp; omega
      rw [h.mem]
      conv_lhs => rw [← hlt]
      rw [hlt]
      have := @List.drop_append _ (a.file.take b.buf) (init.drop b.buf)
        (min (e - b.buf - 1) l)
      rw [hlt] at this
      rw [this, List.drop_drop]
    rw [h1, h2]
    congr 1
    by_cases hc : a.file.length < e - 1
    · have hbe : b.buf = a.file.length := by omega
      rw [hbe, List.take_length, List.take_append, hwt _ (Nat.min_le_right _ _)]
    · have hn0 : min (e - b.buf - 1) l = 0 := by omega
      rw [hn0]
      simp only [List.take_zero, List.append_nil, Nat.add_zero]
      rw [List.take_append_of_le_length (by omega)]
  · intro off ch hmem
    show off < b.buf + min (e - b.buf - 1) l
    simp only [List.mem_append, List.mem_cons, List.not_mem_nil, reduceCtorEq, false_or,
      or_false] at hmem
    rcases hmem with hmem | hmem
    · have := h.stores off ch hmem
      omega
    · obtain ⟨off2, ch2, h1, _, h3⟩ := memcpy_log_mem text _ b.buf _ hmem
      cases h1
      exact h3
  · intro off hmem
    simp only [List.mem_append, List.mem_cons, List.not_mem_nil, reduceCtorEq, false_or,
      or_false] at hmem
    rcases hmem with hmem | hmem
    · exact h.noterm off hmem
    · obtain ⟨off2, ch2, h1, _, _⟩ := memcpy_log_mem text _ b.buf _ hmem
      cases h1
theorem sim_free {e : Nat} {init : List Char} {a b : printer_state} (h : Sim e init a b)
    (item : printer_item) :
    Sim e init { a with freed := a.freed ++ [item] } { b with freed := b.freed ++ [item] } :=
  ⟨h.stream, h.bounded, h.pos, h.mem, h.stores, h.noterm⟩

theorem sim_scan {e : Nat} {init : List Char} (he : 1 ≤ e) (hi : e < init.length)
    (c : List Char) :
    ∀ (i : List printer_item) (a b : printer_state), Sim e init a b →
      ∃ j a1 b1, print_end_scan c i a = some (j, a1) ∧ print_end_scan c i b = some (j, b1)
        ∧ Sim e init a1 b1 := by
  induction c with
  | nil => intro i a b h; exact ⟨i, a, b, rfl, rfl, h⟩
  | cons ch rest ih =>
    intro i a b h
    by_cases hc : ch = '%'
    · cases i with
      | nil =>
        obtain ⟨a1, b1, ha, hb, h1, _, _⟩ := sim_write h he hi "%!MISSING".toList 0 (Nat.zero_le _)
        obtain ⟨j, a2, b2, ha2, hb2, h2⟩ := ih [] a1 b1 h1
        refine ⟨j, a2, b2, ?_, ?_, h2⟩
        · simp only [print_end_scan, hc, if_true, ha, ha2]
        · simp only [print_end_scan, hc, if_true, hb, hb2]
      | cons item next =>
        obtain ⟨a1, b1, ha, hb, h1, _, _⟩ := sim_write h he hi item.text 0 (Nat.zero_le _)
        obtain ⟨j, a2, b2, ha2, hb2, h2⟩ := ih next _ _ (sim_free h1 item)
        refine ⟨j, a2, b2, ?_, ?_, h2⟩
        · simp only [print_end_scan, hc, if_true, ha, ha2]
        · simp only [print_end_scan, hc, if_true, hb, hb2]
    · obtain ⟨a1, b1, ha, hb, h1, _, _⟩ := sim_write h he hi (ch :: rest) 1 (by simp)
      obtain ⟨j, a2, b2, ha2, hb2, h2⟩ := ih i a1 b1 h1
      refine ⟨j, a2, b2, ?_, ?_, h2⟩
      · simp only [print_end_scan, hc, if_false, ha, ha2]
      · simp only [print_end_scan, hc, if_false, hb, hb2]

theorem sim_extra {e : Nat} {init : List Char} (he : 1 ≤ e) (hi : e < init.length)
    (i : List printer_item) :
    ∀ (a b : printer_state), Sim e init a b →
      ∃ a1 b1, print_end_extra i a = some a1 ∧ print_end_extra i b = some b1
        ∧ Sim e init a1 b1 := by
  induction i with
  | nil => intro a b h; exact ⟨a, b, rfl, rfl, h⟩
  | cons item next ih =>
    intro a b h
    obtain ⟨a1, b1, ha1, hb1, h1, _, _⟩ := sim_write h he hi item.typename 0 (Nat.zero_le _)
    obtain ⟨a2, b2, ha2, hb2, h2, _, _⟩ := sim_write h1 he hi "=".toList 0 (Nat.zero_le _)
    obtain ⟨a3, b3, ha3, hb3, h3, _, _⟩ := sim_write h2 he hi item.text 0 (Nat.zero_le _)
    have h4 := sim_free h3 item
    by_cases hn : next = []
    · obtain ⟨a5, b5, ha5, hb5, h5⟩ := ih _ _ h4
      refine ⟨a5, b5, ?_, ?_, h5⟩
      · simp only [print_end_extra, ha1, ha2, ha3, hn, ne_eq, not_true_eq_false, if_false]
        rw [hn] at ha5; exact ha5
      · simp only [print_end_extra, hb1, hb2, hb3, hn, ne_eq, not_true_eq_false, if_false]
        rw [hn] at hb5; exact hb5
    · obtain ⟨a5, b5, ha5, hb5, h5, _, _⟩ := sim_write h4 he hi ", ".toList 0 (Nat.zero_le _)
      obtain ⟨a6, b6, ha6, hb6, h6⟩ := ih a5 b5 h5
      refine ⟨a6, b6, ?_, ?_, h6⟩
      · simp only [print_end_extra, ha1, ha2, ha3, hn, ne_eq, not_false_eq_true, if_true, ha5,
          ha6]
      · simp only [print_end_extra, hb1, hb2, hb3, hn, ne_eq, not_false_eq_true, if_true, hb5,
          hb6]

/-- The bounded run of `print_end` mirrors the stream run: both return, and
the bounded result is the mirror of the stream result with the terminator
stored at the end offset. -/
theorem sim_print_end {e : Nat} {init : List Char} (he : 1 ≤ e) (hi : e < init.length)
    (a b : printer_state) (h : Sim e init a b) (hfmt : a.fmt = b.fmt)
    (hhead : a.head = b.head) :
    ∃ a1 b1, Cfmt.print_end a = some a1 ∧ Sim e init a1 b1
      ∧ Cfmt.print_end b
          = some { b1 with mem := b1.mem.set e NUL, log := b1.log ++ [Event.term e] } := by
  obtain ⟨j, a1, b1, ha1, hb1, h1⟩ := sim_scan he hi b.fmt b.head a b h
  by_cases hj : j = []
  · refine ⟨a1, b1, ?_, h1, ?_⟩
    · simp only [Cfmt.print_end, hfmt, hhead, ha1, hj, ne_eq, not_true_eq_false, if_false,
        h1.stream]
    · simp only [Cfmt.print_end, hb1, hj, ne_eq, not_true_eq_false, if_false, h1.bounded]
  · obtain ⟨a2, b2, ha2, hb2, h2, _, _⟩ := sim_write h1 he hi "%!(EXTRA ".toList 0 (Nat.zero_le _)
    obtain ⟨a3, b3, ha3, hb3, h3⟩ := sim_extra he hi j a2 b2 h2
    obtain ⟨a4, b4, ha4, hb4, h4, _, _⟩ := sim_write h3 he hi ")".toList 0 (Nat.zero_le _)
    refine ⟨a4, b4, ?_, h4, ?_⟩
    · simp only [Cfmt.print_end, hfmt, hhead, ha1, hj, ne_eq, not_false_eq_true, if_true, ha2,
        ha3, ha4, h4.stream]
    · simp only [Cfmt.print_end, hb1, hj, ne_eq, not_false_eq_true, if_true, hb2, hb3, hb4,
        h4.bounded]
theorem foldl_PRINT_PUSH_head (args : List Arg) :
    ∀ (s : printer_state),
      (args.foldl PRINT_PUSH s).head
        = s.head ++ args.map (fun x =>
            ({ typename := x.typename,
               text := cstr ((x.formatter ((x.formatter 0).2 + 1)).1.take
                 ((x.formatter 0).2 + 1)) } : printer_item)) := by
  induction args with
  | nil => intro s; simp
  | cons x xs ih =>
    intro s
    simp only [List.foldl_cons, List.map_cons]
    rw [ih (PRINT_PUSH s x)]
    simp [PRINT_PUSH]

theorem foldl_PRINT_PUSH_file (args : List Arg) :
    ∀ (s : printer_state), (args.foldl PRINT_PUSH s).file = s.file := by
  induction args with
  | nil => intro s; rfl
  | cons x xs ih => intro s; simp only [List.foldl_cons]; rw [ih (PRINT_PUSH s x)]; rfl

/-- The mirror of `snprint` in `fprint`: for a capacity of at least two on a
buffer that has that many characters, both return, and the buffer session is
the mirror of the stream session followed by the terminator store. -/
theorem snprint_mirror (str : List Char) (c : Nat) (format : List Char) (args : List Arg)
    (hc : 2 ≤ c) (hlen : c ≤ str.length) :
    ∃ a b, fprint [] format args = some a ∧ Sim (c - 1) str a b
      ∧ snprint str c format args
          = some { b with mem := b.mem.set (c - 1) NUL,
                          log := b.log ++ [Event.term (c - 1)] } := by
  have hb := foldl_PRINT_PUSH_sink args
    { PRINT_BEGIN format [] str with buf := 0, buf_end := some (c - 1) }
  have ha := foldl_PRINT_PUSH_sink args (PRINT_BEGIN format [] [])
  obtain ⟨hb1, hb2, hb3, hb4, hb5⟩ := hb
  obtain ⟨ha1, _, _, _, ha5⟩ := ha
  have hah := foldl_PRINT_PUSH_head args (PRINT_BEGIN format [] [])
  have hbh := foldl_PRINT_PUSH_head args
    { PRINT_BEGIN format [] str with buf := 0, buf_end := some (c - 1) }
  have haf := foldl_PRINT_PUSH_file args (PRINT_BEGIN format [] [])
  have hsim : Sim (c - 1) str (args.foldl PRINT_PUSH (PRINT_BEGIN format [] []))
      (snprint_setup str c format args) := by
    refine ⟨ha1, hb1, ?_, ?_, ?_, ?_⟩
    · show (snprint_setup str c format args).buf = _
      have : (snprint_setup str c format args).buf = 0 := hb2
      rw [this, haf]; simp [PRINT_BEGIN]
    · have h0 : (snprint_setup str c format args).buf = 0 := hb2
      have hm : (snprint_setup str c format args).mem = str := hb3
      rw [h0, hm]; simp
    · intro off ch hmem
      have : (snprint_setup str c format args).log = [] := hb4
      rw [this] at hmem; simp at hmem
    · intro off hmem
      have : (snprint_setup str c format args).log = [] := hb4
      rw [this] at hmem; simp at hmem
  have hfmt : (args.foldl PRINT_PUSH (PRINT_BEGIN format [] [])).fmt
      = (snprint_setup str c format args).fmt := by
    rw [ha5]; exact hb5.symm
  have hhead : (args.foldl PRINT_PUSH (PRINT_BEGIN format [] [])).head
      = (snprint_setup str c format args).head := by
    rw [hah]; exact hbh.symm
  obtain ⟨a1, b1, h1, h2, h3⟩ :=
    sim_print_end (by omega) (by omega) _ _ hsim hfmt hhead
  refine ⟨a1, b1, h1, h2, ?_⟩
  have hne : c ≠ 0 := by omega
  simp only [snprint, hne, if_false]
  exact h3

theorem print_write_at_end (s : printer_state) (e : Nat) (he : s.buf_end = some e)
    (hb : ¬ s.buf < e) (text : List Char) (len : Nat) : print_write s text len = none := by
  unfold print_write
  rw [he]
  simp [hb]
/-- C12. For every capacity `c` of at least two, every template and every
argument list, with `S` the text `fprint` writes to an empty stream: `snprint`
on a buffer of `c` characters returns with the write position at
`min (length S) (c - 2)`, and the buffer holds the first
`min (length S) (c - 2)` characters of `S` at offsets `0 ..`. -/
theorem snprint_truncates_stream (str : List Char) (c : Nat) (format : List Char)
    (args : List Arg) (hc : 2 ≤ c) (hlen : c ≤ str.length) :
    ∃ a t, fprint [] format args = some a ∧ snprint str c format args = some t
      ∧ t.buf = min a.file.length (c - 2)
      ∧ t.mem.take (min a.file.length (c - 2)) = a.file.take (min a.file.length (c - 2)) := by
  obtain ⟨a, b, ha, hsim, hb⟩ := snprint_mirror str c format args hc hlen
  have hpos : b.buf = min a.file.length (c - 2) := by
    rw [hsim.pos]; congr 1
  refine ⟨a, _, ha, hb, hpos, ?_⟩
  show (b.mem.set (c - 1) NUL).take _ = _
  rw [List.take_set_of_lt NUL b.mem (by omega), ← hpos, hsim.mem,
    List.take_append_of_le_length (by simp; omega)]
  simp

theorem snprint_truncates_stream_witness :
    ∃ a t, fprint [] "hi".toList [arg_int_3, arg_str_ok] = some a
      ∧ snprint "XXXXX".toList 5 "hi".toList [arg_int_3, arg_str_ok] = some t
      ∧ t.buf = min a.file.length (5 - 2)
      ∧ t.mem.take (min a.file.length (5 - 2)) = a.file.take (min a.file.length (5 - 2)) :=
  snprint_truncates_stream "XXXXX".toList 5 "hi".toList [arg_int_3, arg_str_ok]
    (by decide) (by decide)

/-- C13. For every capacity `c` of at least two, with `L` the length of the
text `fprint` writes for the same template and arguments: `snprint` stores
characters only at offsets below `min L (c - 2)` and the terminator only at
offset `c - 1`; every other offset of the buffer, in particular every offset
from `min L (c - 2)` to `c - 2`, keeps its initial content, so offset `c - 2`
is never written and for `L < c - 2` the offset directly after the content is
not the terminator's. -/
theorem snprint_frame (str : List Char) (c : Nat) (format : List Char)
    (args : List Arg) (hc : 2 ≤ c) (hlen : c ≤ str.length) :
    ∃ a t, fprint [] format args = some a ∧ snprint str c format args = some t
      ∧ (∀ off ch, Event.store off ch ∈ t.log → off < min a.file.length (c - 2))
      ∧ (∀ off, Event.term off ∈ t.log → off = c - 1)
      ∧ (∀ p, min a.file.length (c - 2) ≤ p → p ≠ c - 1 → t.mem[p]? = str[p]?)
      ∧ t.mem[c - 1]? = some NUL
      ∧ t.mem.length = str.length := by
  obtain ⟨a, b, ha, hsim, hb⟩ := snprint_mirror str c format args hc hlen
  have hpos : b.buf = min a.file.length (c - 2) := by
    rw [hsim.pos]; congr 1
  have hblen : b.mem.length = str.length := by
    rw [hsim.mem]; simp; omega
  refine ⟨a, _, ha, hb, ?_, ?_, ?_, ?_, ?_⟩
  · intro off ch hmem
    have hmem2 : Event.store off ch ∈ b.log ++ [Event.term (c - 1)] := hmem
    simp only [List.mem_append, List.mem_singleton, reduceCtorEq, or_false] at hmem2
    rw [← hpos]
    exact hsim.stores off ch hmem2
  · intro off hmem
    have hmem2 : Event.term off ∈ b.log ++ [Event.term (c - 1)] := hmem
    simp only [List.mem_append, List.mem_singleton, Event.term.injEq] at hmem2
    rcases hmem2 with h | h
    · exact absurd h (hsim.noterm off)
    · exact h
  · intro p hp hne
    show (b.mem.set (c - 1) NUL)[p]? = _
    rw [List.getElem?_set_ne (fun h => hne h.symm), hsim.mem,
      List.getElem?_append_right (by simp; omega), List.getElem?_drop]
    congr 1
    simp
    omega
  · show (b.mem.set (c - 1) NUL)[c - 1]? = _
    exact List.getElem?_set_self (by omega)
  · show (b.mem.set (c - 1) NUL).length = _
    simp [hblen]

theorem snprint_frame_witness :
    ∃ a t, fprint [] "hi".toList [arg_int_3, arg_str_ok] = some a
      ∧ snprint "XXXXX".toList 5 "hi".toList [arg_int_3, arg_str_ok] = some t
      ∧ (∀ off ch, Event.store off ch ∈ t.log → off < min a.file.length (5 - 2))
      ∧ (∀ off, Event.term off ∈ t.log → off = 5 - 1)
      ∧ (∀ p, min a.file.length (5 - 2) ≤ p → p ≠ 5 - 1 → t.mem[p]? = "XXXXX".toList[p]?)
      ∧ t.mem[5 - 1]? = some NUL
      ∧ t.mem.length = "XXXXX".toList.length :=
  snprint_frame "XXXXX".toList 5 "hi".toList [arg_int_3, arg_str_ok] (by decide) (by decide)
theorem scan_aborts (s : printer_state)
    (hw : ∀ (text : List Char) (len : Nat), print_write s text len = none)
    (ch : Char) (rest : List Char) (i : List printer_item) :
    print_end_scan (ch :: rest) i s = none := by
  by_cases hch : ch = '%'
  · cases i with
    | nil => simp only [print_end_scan, hch, if_true, hw]
    | cons item next => simp only [print_end_scan, hch, if_true, hw]
  · simp only [print_end_scan, hch, if_false, hw]

/-- C14. For `snprint` with a capacity `c` of at least one, an assertion of
`print_write` fails (the call aborts) exactly when `c = 1` and `print_end`
calls `print_write` at all, which it does when the template is not empty or
an argument is supplied; for every `c` of at least two no assertion fails. -/
theorem snprint_assert_fails_iff (str : List Char) (c : Nat) (format : List Char)
    (args : List Arg) (hc : 1 ≤ c) :
    snprint str c format args = none ↔ (c = 1 ∧ (format ≠ [] ∨ args ≠ [])) := by
  by_cases h2 : 2 ≤ c
  · obtain ⟨u, evs, hu, _⟩ := snprint_within str c h2 format args
    rw [hu]
    constructor
    · intro h; cases h
    · intro h; omega
  · have h1 : c = 1 := by omega
    subst h1
    obtain ⟨hb1, hb2, _, _, hb5⟩ := foldl_PRINT_PUSH_sink args
      { PRINT_BEGIN format [] str with buf := 0, buf_end := some (1 - 1) }
    have hbh := foldl_PRINT_PUSH_head args
      { PRINT_BEGIN format [] str with buf := 0, buf_end := some (1 - 1) }
    have he : (snprint_setup str 1 format args).buf_end = some 0 := hb1
    have hb : ¬ (snprint_setup str 1 format args).buf < 0 := by omega
    have hfmt : (snprint_setup str 1 format args).fmt = format := hb5
    have hhead : (snprint_setup str 1 format args).head = [] ↔ args = [] := by
      have : (snprint_setup str 1 format args).head = _ := hbh
      rw [this]; simp [PRINT_BEGIN]
    have hw := print_write_at_end _ 0 he hb
    simp only [snprint, one_ne_zero, if_false, true_and]
    cases hf : format with
    | cons ch rest =>
      have hscan : print_end_scan (ch :: rest) (snprint_setup str 1 (ch :: rest) args).head
          (snprint_setup str 1 (ch :: rest) args) = none := by
        rw [hf] at hw
        exact scan_aborts _ hw ch rest _
      rw [hf] at hfmt
      simp only [print_end, hfmt, hscan]
      simp
    | nil =>
      rw [hf] at hfmt hhead hw he
      by_cases ha : args = []
      · have hq := hhead.2 ha
        simp only [print_end, hfmt, hq, print_end_scan, ne_eq, not_true_eq_false, if_false, he]
        simp [ha]
      · have hq : (snprint_setup str 1 [] args).head ≠ [] := fun h => ha (hhead.1 h)
        simp only [print_end, hfmt, print_end_scan, ne_eq, hq, not_false_eq_true, if_true, hw]
        simp [ha]

theorem snprint_assert_fails_iff_witness :
    snprint ['X'] 1 "a".toList [] = none
      ↔ (1 = 1 ∧ ("a".toList ≠ [] ∨ ([] : List Arg) ≠ [])) :=
  snprint_assert_fails_iff ['X'] 1 "a".toList [] (by decide)

/-- C15. One `print_write` on a bounded sink at position `p` below the end
offset `e`, for a text of requested length `len` (`strlen(text)` when the
argument is zero): it returns, the first `n = min (e - p - 1) len` characters
of the text stand at offsets `p .. p + n - 1`, the position is `p + n`, and
every other character of the buffer, the end offset and the stream are
unchanged; the rest of the text is dropped. -/
theorem print_write_copies (s : printer_state) (e : Nat) (he : s.buf_end = some e)
    (hp : s.buf < e) (hm : e ≤ s.mem.length) (text : List Char) (len : Nat)
    (hlen : len ≤ text.length) :
    ∃ t, print_write s text len = some t
      ∧ t.buf = s.buf + min (e - s.buf - 1) (if len = 0 then text.length else len)
      ∧ t.mem = s.mem.take s.buf
          ++ text.take (min (e - s.buf - 1) (if len = 0 then text.length else len))
          ++ s.mem.drop (s.buf + min (e - s.buf - 1) (if len = 0 then text.length else len))
      ∧ t.buf_end = s.buf_end ∧ t.file = s.file ∧ t.head = s.head ∧ t.fmt = s.fmt := by
  refine ⟨_, print_write_bounded s e he hp text len, rfl, ?_, rfl, rfl, rfl, rfl⟩
  have hl : (if len = 0 then text.length else len) ≤ text.length := by
    by_cases h0 : len = 0
    · simp [h0]
    · simp [h0, hlen]
  exact memcpy_eq text _ s.mem s.buf (by omega) (by omega)

theorem print_write_copies_witness :
    ∃ t, print_write (snprint_setup "XXXXX".toList 5 "hi".toList []) "%!(EXTRA ".toList 0
        = some t
      ∧ t.buf = (snprint_setup "XXXXX".toList 5 "hi".toList []).buf
          + min (4 - (snprint_setup "XXXXX".toList 5 "hi".toList []).buf - 1)
              (if 0 = 0 then "%!(EXTRA ".toList.length else 0)
      ∧ t.mem = (snprint_setup "XXXXX".toList 5 "hi".toList []).mem.take
            (snprint_setup "XXXXX".toList 5 "hi".toList []).buf
          ++ "%!(EXTRA ".toList.take
              (min (4 - (snprint_setup "XXXXX".toList 5 "hi".toList []).buf - 1)
                (if 0 = 0 then "%!(EXTRA ".toList.length else 0))
          ++ (snprint_setup "XXXXX".toList 5 "hi".toList []).mem.drop
              ((snprint_setup "XXXXX".toList 5 "hi".toList []).buf
                + min (4 - (snprint_setup "XXXXX".toList 5 "hi".toList []).buf - 1)
                    (if 0 = 0 then "%!(EXTRA ".toList.length else 0))
      ∧ t.buf_end = (snprint_setup "XXXXX".toList 5 "hi".toList []).buf_end
      ∧ t.file = (snprint_setup "XXXXX".toList 5 "hi".toList []).file
      ∧ t.head = (snprint_setup "XXXXX".toList 5 "hi".toList []).head
      ∧ t.fmt = (snprint_setup "XXXXX".toList 5 "hi".toList []).fmt :=
  print_write_copies (snprint_setup "XXXXX".toList 5 "hi".toList []) 4 (by decide) (by decide)
    (by decide) "%!(EXTRA ".toList 0 (by decide)
theorem snprintf_contract (full : List Char) :
    (∀ size, (snprintf full size).2 = full.length)
      ∧ (∀ size, 1 ≤ size →
          (snprintf full size).1 = full.take (min full.length (size - 1)) ++ [NUL]) := by
  refine ⟨fun _ => rfl, ?_⟩
  intro size hsize
  have hne : size ≠ 0 := by omega
  simp only [snprintf, hne, if_false]
  congr 1
  by_cases h : full.length ≤ size - 1
  · rw [Nat.min_eq_left h, List.take_of_length_le h, List.take_length]
  · rw [Nat.min_eq_right (by omega)]

theorem cstr_append_nul (full : List Char) (hnul : NUL ∉ full) (rest : List Char) :
    cstr (full ++ NUL :: rest) = full := by
  induction full with
  | nil => simp [cstr, List.takeWhile]
  | cons c cs ih =>
    have hc : c ≠ NUL := by
      intro h; apply hnul; simp [h]
    have hcs : NUL ∉ cs := by
      intro h; apply hnul; simp [h]
    have := ih hcs
    have hb : (c != NUL) = true := by simpa using hc
    simp only [cstr] at this ⊢
    rw [List.cons_append, List.takeWhile_cons, hb, if_pos rfl, this]

theorem item_storage_full (ty : List Char) (f : printf_formatter_t) (full : List Char)
    (hret : ∀ size, (f size).2 = full.length)
    (hwr : ∀ size, 1 ≤ size → (f size).1 = full.take (min full.length (size - 1)) ++ [NUL]) :
    item_storage ⟨ty, f⟩ = full ++ [NUL] := by
  simp only [item_storage]
  rw [hret 0, hwr (full.length + 1) (by omega)]
  simp

theorem PRINT_PUSH_head_full (s : printer_state) (ty : List Char) (f : printf_formatter_t)
    (full : List Char) (hret : ∀ size, (f size).2 = full.length)
    (hwr : ∀ size, 1 ≤ size → (f size).1 = full.take (min full.length (size - 1)) ++ [NUL])
    (hnul : NUL ∉ full) :
    (PRINT_PUSH s ⟨ty, f⟩).head = s.head ++ [⟨ty, full⟩] := by
  have hst := item_storage_full ty f full hret hwr
  have : (PRINT_PUSH s ⟨ty, f⟩).head = s.head ++ [⟨ty, cstr (item_storage ⟨ty, f⟩)⟩] := rfl
  rw [this, hst, cstr_append_nul full hnul []]

/-- C17, as stated, fails: the rule of `(char)0` under `"%c"` obeys the
`snprintf` contract with `n = 1` (it returns 1 for every size and stores the
first `min 1 (size - 1)` characters of its output and a zero), the storage of
the record holds the output and the terminator, yet the text of the record,
which `print_end` reads as a C string, is empty and not of length 1:
`print("a%b", (char)0)` writes `ab`. -/
theorem PRINT_PUSH_full_text_counterexample :
    (∀ size, (arg_char_zero.formatter size).2 = 1)
      ∧ (∀ size, 1 ≤ size →
          (arg_char_zero.formatter size).1 = [NUL].take (min 1 (size - 1)) ++ [NUL])
      ∧ item_storage arg_char_zero = [NUL, NUL]
      ∧ (PRINT_PUSH session_plain arg_char_zero).head = [⟨"char".toList, []⟩]
      ∧ ([] : List Char).length ≠ (arg_char_zero.formatter 0).2
      ∧ (fprint [] "a%b".toList [arg_char_zero]).map (fun t => t.file) = some "ab".toList :=
  ⟨(snprintf_contract [NUL]).1, (snprintf_contract [NUL]).2, by decide, by decide, by decide,
    by decide⟩

/-- C17, amended. For a formatter that obeys the `snprintf` contract with
complete output `full` of length `n` (it returns `n` for every size and, for a
size of at least one, stores the first `min n (size - 1)` characters and a
zero) and whose output holds no zero character, `PRINT_PUSH` measures with
size 0, calls the formatter again with size `n + 1` on storage of `n + 1`
characters, that storage then holds all of `full` followed by the terminator,
and the text of the new record, linked behind the records already there, is
`full`, of length `n`. -/
theorem PRINT_PUSH_full_text (s : printer_state) (ty : List Char) (f : printf_formatter_t)
    (full : List Char) (hret : ∀ size, (f size).2 = full.length)
    (hwr : ∀ size, 1 ≤ size → (f size).1 = full.take (min full.length (size - 1)) ++ [NUL])
    (hnul : NUL ∉ full) :
    (f 0).2 = full.length
      ∧ item_storage ⟨ty, f⟩ = (f ((f 0).2 + 1)).1.take ((f 0).2 + 1)
      ∧ item_storage ⟨ty, f⟩ = full ++ [NUL]
      ∧ (PRINT_PUSH s ⟨ty, f⟩).head = s.head ++ [⟨ty, full⟩]
      ∧ (∀ item, (PRINT_PUSH s ⟨ty, f⟩).head.getLast? = some item →
          item.text = full ∧ item.text.length = (f 0).2) := by
  have hst := item_storage_full ty f full hret hwr
  have hhead := PRINT_PUSH_head_full s ty f full hret hwr hnul
  refine ⟨hret 0, rfl, hst, hhead, ?_⟩
  intro item hitem
  rw [hhead, List.getLast?_concat] at hitem
  cases hitem
  exact ⟨rfl, (hret 0).symm⟩

theorem PRINT_PUSH_full_text_witness :
    (snprintf "ok".toList 0).2 = "ok".toList.length
      ∧ item_storage ⟨"char*".toList, snprintf "ok".toList⟩
          = (snprintf "ok".toList ((snprintf "ok".toList 0).2 + 1)).1.take
              ((snprintf "ok".toList 0).2 + 1)
      ∧ item_storage ⟨"char*".toList, snprintf "ok".toList⟩ = "ok".toList ++ [NUL]
      ∧ (PRINT_PUSH session_plain ⟨"char*".toList, snprintf "ok".toList⟩).head
          = session_plain.head ++ [⟨"char*".toList, "ok".toList⟩]
      ∧ (∀ item,
          (PRINT_PUSH session_plain ⟨"char*".toList, snprintf "ok".toList⟩).head.getLast?
              = some item →
            item.text = "ok".toList ∧ item.text.length = (snprintf "ok".toList 0).2) :=
  PRINT_PUSH_full_text session_plain "char*".toList (snprintf "ok".toList) "ok".toList
    (snprintf_contract "ok".toList).1 (snprintf_contract "ok".toList).2 (by decide)

/-- C18. The function `unknown_formatter` obeys the formatter contract and
does not depend on its value argument: for every size it returns 9; with size
0 it stores nothing; with a size of at least one it stores the first
`min 9 (size - 1)` characters of `%!UNKNOWN` and a zero, never more than `size`
characters; the record `PRINT_PUSH` builds from it has the text
`%!UNKNOWN`. -/
theorem unknown_formatter_contract {α : Type} (x : α) (size : Nat) :
    (unknown_formatter x size).2 = 9
      ∧ (unknown_formatter x size).1
          = (if size = 0 then [] else "%!UNKNOWN".toList.take (min 9 (size - 1)) ++ [NUL])
      ∧ (unknown_formatter x size).1.length ≤ size
      ∧ (∀ y : α, unknown_formatter y = unknown_formatter x)
      ∧ (∀ (s : printer_state) (ty : List Char),
          (PRINT_PUSH s ⟨ty, unknown_formatter x⟩).head
            = s.head ++ [⟨ty, "%!UNKNOWN".toList⟩]) := by
  have hlit : printf_literal "%%!UNKNOWN".toList = "%!UNKNOWN".toList := by decide
  have hc := snprintf_contract "%!UNKNOWN".toList
  have hu : (unknown_formatter x : printf_formatter_t) = snprintf "%!UNKNOWN".toList := by
    simp only [unknown_formatter, hlit]
  refine ⟨?_, ?_, ?_, fun _ => rfl, ?_⟩
  · rw [hu]; rfl
  · rw [hu]
    by_cases h0 : size = 0
    · simp [h0, snprintf]
    · rw [if_neg h0, hc.2 size (by omega)]
      rfl
  · rw [hu]
    by_cases h0 : size = 0
    · simp [h0, snprintf]
    · simp only [snprintf, h0, if_false, List.length_append, List.length_take,
        List.length_singleton]
      omega
  · intro s ty
    rw [hu]
    exact PRINT_PUSH_head_full s ty (snprintf "%!UNKNOWN".toList) "%!UNKNOWN".toList
      hc.1 hc.2 (by decide)

/-- C11, as stated, fails: `print("hi", 1+2, "ok")` does not write
`hi%!(EXTRA int=3, string=ok)`. -/
theorem print_extra_label_counterexample :
    (print [] "hi".toList [value_int_3, value_str_ok]).map (fun t => t.file)
      ≠ some "hi%!(EXTRA int=3, string=ok)".toList := by
  decide

/-- C11, amended. Through the `print` macro with the labels of
`PRINT_TYPE_NAME`, the template `hi` with the values 3 (an `int`) and `"ok"`
(a `char*`) is written as `hi%!(EXTRA int=3, char*=ok)`: the label of a C
string is the stringified type `char*`. -/
theorem print_extra_label :
    (print [] "hi".toList [value_int_3, value_str_ok]).map (fun t => t.file)
      = some "hi%!(EXTRA int=3, char*=ok)".toList := by
  decide
theorem chain_ptr_none_iff (cells : List printer_cell) (p : Option Nat) (addrs : List Nat)
    (recs : List printer_item) (h : chain cells p addrs recs) : p = none ↔ recs = [] := by
  cases addrs with
  | nil =>
    cases recs with
    | nil => simp only [chain] at h; simp [h]
    | cons r rs => simp [chain] at h
  | cons a as =>
    cases recs with
    | nil => simp [chain] at h
    | cons r rs => simp only [chain] at h; simp [h.1]

theorem chain_nil_right (cells : List printer_cell) (p : Option Nat) (addrs : List Nat)
    (h : chain cells p addrs []) : addrs = [] ∧ p = none := by
  cases addrs with
  | nil => simp only [chain] at h; exact ⟨rfl, h⟩
  | cons a as => simp [chain] at h

theorem chain_cons_right (cells : List printer_cell) (p : Option Nat) (addrs : List Nat)
    (r : printer_item) (rs : List printer_item) (h : chain cells p addrs (r :: rs)) :
    ∃ a as c, addrs = a :: as ∧ p = some a ∧ cells[a]? = some c
      ∧ (⟨c.typename, c.text⟩ : printer_item) = r ∧ chain cells c.next as rs := by
  cases addrs with
  | nil => simp [chain] at h
  | cons a as =>
    simp only [chain] at h
    obtain ⟨h1, h2, h3⟩ := h
    cases hc : cells[a]? with
    | none => rw [hc] at h2; simp at h2
    | some c =>
      rw [hc] at h2 h3
      simp only [Option.map_some', Option.some.injEq, Prod.mk.injEq] at h2
      refine ⟨a, as, c, rfl, h1, hc, ?_, h3⟩
      cases r
      simp only [printer_item.mk.injEq]
      exact h2

theorem chain_lt (cells : List printer_cell) :
    ∀ (recs : List printer_item) (p : Option Nat) (addrs : List Nat),
      chain cells p addrs recs → ∀ a ∈ addrs, a < cells.length := by
  intro recs
  induction recs with
  | nil =>
    intro p addrs h a ha
    rw [(chain_nil_right cells p addrs h).1] at ha
    simp at ha
  | cons r rs ih =>
    intro p addrs h a ha
    obtain ⟨a0, as, c, h1, _, h3, _, h5⟩ := chain_cons_right cells p addrs r rs h
    subst h1
    rcases List.mem_cons.1 ha with h | h
    · subst h
      by_contra hlt
      rw [List.getElem?_eq_none (by omega)] at h3
      cases h3
    · exact ih c.next as h5 a h

theorem nodup_length_le (addrs : List Nat) (n : Nat) (hnd : addrs.Nodup)
    (hlt : ∀ a ∈ addrs, a < n) : addrs.length ≤ n := by
  have h1 : addrs.toFinset ⊆ Finset.range n := by
    intro a ha
    simp only [List.mem_toFinset] at ha
    simp [hlt a ha]
  have h2 := Finset.card_le_card h1
  rw [List.toFinset_card_of_nodup hnd, Finset.card_range] at h2
  exact h2

theorem load_live (q : linked_state) (a : Nat) (c : printer_cell) (hc : q.cells[a]? = some c)
    (hl : a ∉ q.released) : load q a = some c := by
  simp [load, hl, hc]

theorem free_item_live (q : linked_state) (a : Nat) (c : printer_cell)
    (hc : q.cells[a]? = some c) (hl : a ∉ q.released) :
    free_item q a = some { q with released := q.released ++ [a] } := by
  have hlt : a < q.cells.length := by
    by_contra h
    rw [List.getElem?_eq_none (by omega)] at hc
    cases hc
  have : ¬ (a ∈ q.released ∨ q.cells.length ≤ a) := by
    intro h
    rcases h with h | h
    · exact hl h
    · omega
  simp only [free_item, this, if_false]
theorem scan_linked_eq (c : List Char) :
    ∀ (i : Option Nat) (q : linked_state) (s : printer_state) (addrs : List Nat)
      (recs : List printer_item),
      chain q.cells i addrs recs → addrs.Nodup → (∀ a ∈ addrs, a ∉ q.released) →
      (print_end_scan c recs s = none ∧ print_end_scan_linked c i q s = none)
        ∨ ∃ k t j, print_end_scan c recs s = some (recs.drop k, t)
            ∧ print_end_scan_linked c i q s
                = some (j, { q with released := q.released ++ addrs.take k }, t)
            ∧ chain q.cells j (addrs.drop k) (recs.drop k) := by
  induction c with
  | nil =>
    intro i q s addrs recs hch _ _
    exact Or.inr ⟨0, s, i, rfl, by simp [print_end_scan_linked], hch⟩
  | cons ch rest ih =>
    intro i q s addrs recs hch hnd hlive
    by_cases hc : ch = '%'
    · cases recs with
      | nil =>
        obtain ⟨ha, hi⟩ := chain_nil_right q.cells i addrs hch
        subst ha; subst hi
        cases hw : print_write s "%!MISSING".toList 0 with
        | none =>
          exact Or.inl ⟨by simp only [print_end_scan, hc, if_true, hw],
            by simp only [print_end_scan_linked, hc, if_true, hw]⟩
        | some s1 =>
          rcases ih none q s1 [] [] hch hnd hlive with h | ⟨k, t, j, h1, h2, h3⟩
          · exact Or.inl ⟨by simp only [print_end_scan, hc, if_true, hw, h.1],
              by simp only [print_end_scan_linked, hc, if_true, hw, h.2]⟩
          · refine Or.inr ⟨k, t, j, ?_, ?_, h3⟩
            · simp only [print_end_scan, hc, if_true, hw, h1]
            · simp only [print_end_scan_linked, hc, if_true, hw, h2]
      | cons r rs =>
        obtain ⟨a, as, cl, ha, hi, hcell, hrec, hnext⟩ :=
          chain_cons_right q.cells i addrs r rs hch
        subst ha; subst hi
        have hla : a ∉ q.released := hlive a (by simp)
        have hload := load_live q a cl hcell hla
        have hfree := free_item_live q a cl hcell hla
        have htext : cl.text = r.text := by rw [← hrec]
        cases hw : print_write s r.text 0 with
        | none =>
          exact Or.inl ⟨by simp only [print_end_scan, hc, if_true, hw],
            by simp only [print_end_scan_linked, hc, if_true, hload, htext, hw]⟩
        | some s1 =>
          have hnd2 : as.Nodup := (List.nodup_cons.1 hnd).2
          have hna : a ∉ as := (List.nodup_cons.1 hnd).1
          have hlive2 : ∀ b ∈ as,
              b ∉ ({ q with released := q.released ++ [a] } : linked_state).released := by
            intro b hb hmem
            rcases List.mem_append.1 hmem with h | h
            · exact hlive b (by simp [hb]) h
            · have : b = a := by simpa using h
              exact hna (this ▸ hb)
          rcases ih cl.next { q with released := q.released ++ [a] }
              { s1 with freed := s1.freed ++ [r] } as rs hnext hnd2 hlive2
            with h | ⟨k, t, j, h1, h2, h3⟩
          · refine Or.inl ⟨by simp only [print_end_scan, hc, if_true, hw, h.1], ?_⟩
            simp only [print_end_scan_linked, hc, if_true, hload, htext, hw, hfree, hrec]
            rw [← htext, hrec]
            exact h.2
          · refine Or.inr ⟨k + 1, t, j, ?_, ?_, h3⟩
            · simp only [print_end_scan, hc, if_true, hw, h1, List.drop_succ_cons]
            · simp only [print_end_scan_linked, hc, if_true, hload, htext, hw, hfree]
              rw [← htext, hrec, h2]
              simp
    · cases hw : print_write s (ch :: rest) 1 with
      | none =>
        exact Or.inl ⟨by simp only [print_end_scan, hc, if_false, hw],
          by simp only [print_end_scan_linked, hc, if_false, hw]⟩
      | some s1 =>
        rcases ih i q s1 addrs recs hch hnd hlive with h | ⟨k, t, j, h1, h2, h3⟩
        · exact Or.inl ⟨by simp only [print_end_scan, hc, if_false, hw, h.1],
            by simp only [print_end_scan_linked, hc, if_false, hw, h.2]⟩
        · refine Or.inr ⟨k, t, j, ?_, ?_, h3⟩
          · simp only [print_end_scan, hc, if_false, hw, h1]
          · simp only [print_end_scan_linked, hc, if_false, hw, h2]
theorem extra_linked_eq (recs : List printer_item) :
    ∀ (fuel : Nat) (i : Option Nat) (q : linked_state) (s : printer_state) (addrs : List Nat),
      chain q.cells i addrs recs → addrs.Nodup → (∀ a ∈ addrs, a ∉ q.released) →
      addrs.length ≤ fuel →
      print_end_extra_linked fuel i q s
        = (print_end_extra recs s).map
            (fun t => (({ q with released := q.released ++ addrs } : linked_state), t)) := by
  induction recs with
  | nil =>
    intro fuel i q s addrs hch _ _ _
    obtain ⟨ha, hi⟩ := chain_nil_right q.cells i addrs hch
    subst ha; subst hi
    cases fuel <;> simp [print_end_extra_linked, print_end_extra]
  | cons r rs ih =>
    intro fuel i q s addrs hch hnd hlive hfuel
    obtain ⟨a, as, cl, ha, hi, hcell, hrec, hnext⟩ := chain_cons_right q.cells i addrs r rs hch
    subst ha; subst hi
    cases fuel with
    | zero => simp at hfuel
    | succ fuel =>
      have hla : a ∉ q.released := hlive a (by simp)
      have hload := load_live q a cl hcell hla
      have hfree := free_item_live q a cl hcell hla
      have htext : cl.text = r.text := by rw [← hrec]
      have hty : cl.typename = r.typename := by rw [← hrec]
      have hnd2 : as.Nodup := (List.nodup_cons.1 hnd).2
      have hna : a ∉ as := (List.nodup_cons.1 hnd).1
      have hlive2 : ∀ b ∈ as,
          b ∉ ({ q with released := q.released ++ [a] } : linked_state).released := by
        intro b hb hmem
        rcases List.mem_append.1 hmem with h | h
        · exact hlive b (by simp [hb]) h
        · have : b = a := by simpa using h
          exact hna (this ▸ hb)
      have hiff : cl.next ≠ none ↔ rs ≠ [] :=
        not_congr (chain_ptr_none_iff q.cells cl.next as rs hnext)
      have hitem : (⟨r.typename, r.text⟩ : printer_item) = r := by cases r; rfl
      simp only [print_end_extra_linked, print_end_extra, hload, hty, htext, hfree, hitem]
      cases hw1 : print_write s r.typename 0 with
      | none => rfl
      | some s1 =>
        simp only []
        cases hw2 : print_write s1 "=".toList 0 with
        | none => rfl
        | some s2 =>
          simp only []
          cases hw3 : print_write s2 r.text 0 with
          | none => rfl
          | some s3 =>
            simp only []
            by_cases hrs : rs = []
            · have hn : ¬ (cl.next ≠ none) := fun h => (hiff.1 h) hrs
              subst hrs
              simp only [hn, ne_eq, not_true_eq_false, if_false]
              have := ih fuel cl.next { q with released := q.released ++ [a] }
                { s3 with freed := s3.freed ++ [r] } as hnext hnd2 hlive2
                (by simp at hfuel; omega)
              rw [this]
              simp
            · have hn : cl.next ≠ none := hiff.2 hrs
              simp only [hn, hrs, ne_eq, not_false_eq_true, if_true]
              cases hw4 : print_write { s3 with freed := s3.freed ++ [r] } ", ".toList 0 with
              | none => rfl
              | some s5 =>
                simp only []
                have := ih fuel cl.next { q with released := q.released ++ [a] } s5 as hnext
                  hnd2 hlive2 (by simp at hfuel; omega)
                rw [this]
                simp
/-- The function `print_end` at the level of pointers agrees with `print_end`
on the list of records, on every queue that is a chain of distinct live
records: it faults nowhere, and when it returns it has released exactly the
records of the chain, in order. -/
theorem print_end_linked_eq (q : linked_state) (s : printer_state) (addrs : List Nat)
    (hch : chain q.cells q.head addrs s.head) (hnd : addrs.Nodup)
    (hlive : ∀ a ∈ addrs, a ∉ q.released) :
    print_end_linked q s
      = (print_end s).map
          (fun t => (({ q with released := q.released ++ addrs } : linked_state), t)) := by
  rcases scan_linked_eq s.fmt q.head q s addrs s.head hch hnd hlive
    with h | ⟨k, t, j, h1, h2, h3⟩
  · simp only [print_end_linked, print_end, h.1, h.2, Option.map_none']
  · have hiff : j ≠ none ↔ s.head.drop k ≠ [] :=
      not_congr (chain_ptr_none_iff q.cells j _ _ h3)
    have hsplit : addrs.take k ++ addrs.drop k = addrs := List.take_append_drop k addrs
    by_cases hd : s.head.drop k = []
    · have hj : ¬ (j ≠ none) := fun h => (hiff.1 h) hd
      have hdrop : addrs.drop k = [] := by
        rw [hd] at h3
        exact (chain_nil_right q.cells j _ h3).1
      have htake : addrs.take k = addrs := by
        rw [hdrop, List.append_nil] at hsplit; exact hsplit
      simp only [print_end_linked, print_end, h1, h2, hj, hd, ne_eq, not_true_eq_false,
        if_false, htake]
      cases t.buf_end <;> rfl
    · have hj : j ≠ none := hiff.2 hd
      simp only [print_end_linked, print_end, h1, h2, hj, hd, ne_eq, not_false_eq_true, if_true]
      cases hw : print_write t "%!(EXTRA ".toList 0 with
      | none => rfl
      | some s2 =>
        simp only []
        have hnd2 : (addrs.drop k).Nodup := hnd.sublist (List.drop_sublist k addrs)
        have hnd3 : (addrs.take k ++ addrs.drop k).Nodup := by rw [hsplit]; exact hnd
        have hlive2 : ∀ b ∈ addrs.drop k,
            b ∉ ({ q with released := q.released ++ addrs.take k } : linked_state).released := by
          intro b hb hmem
          rcases List.mem_append.1 hmem with h | h
          · exact hlive b (List.mem_of_mem_drop hb) h
          · exact (List.nodup_append.1 hnd3).2.2 h hb
        have hlen : (addrs.drop k).length
            ≤ ({ q with released := q.released ++ addrs.take k } : linked_state).cells.length :=
          nodup_length_le _ _ hnd2 (chain_lt q.cells _ j _ h3)
        have := extra_linked_eq (s.head.drop k) _ j
          { q with released := q.released ++ addrs.take k } s2 (addrs.drop k) h3 hnd2 hlive2 hlen
        rw [this]
        cases hx : print_end_extra (s.head.drop k) s2 with
        | none => rfl
        | some s3 =>
          simp only [Option.map_some']
          cases hw2 : print_write s3 ")".toList 0 with
          | none => rfl
          | some s4 =>
            simp only [List.append_assoc, hsplit]
            cases s4.buf_end <;> rfl
theorem set_next_append_right (h0 : List printer_cell) (l : List printer_cell) (k : Nat)
    (p : Option Nat) : set_next (h0 ++ l) (h0.length + k) p = h0 ++ set_next l k p := by
  induction h0 with
  | nil => simp
  | cons c cs ih =>
    have : (c :: cs).length + k = (cs.length + k) + 1 := by simp; omega
    rw [List.cons_append, this]
    simp only [set_next]
    rw [ih, List.cons_append]

theorem set_next_linked_cells (recs : List printer_item) (r : printer_item) :
    ∀ (base : Nat), recs ≠ [] →
      set_next (linked_cells base recs ++ [⟨none, r.typename, r.text⟩]) (recs.length - 1)
          (some (base + recs.length))
        = linked_cells base (recs ++ [r]) := by
  induction recs with
  | nil => intro base h; exact absurd rfl h
  | cons r1 rs ih =>
    intro base _
    cases rs with
    | nil => simp [linked_cells, set_next]
    | cons r2 rs2 =>
      have h := ih (base + 1) (by simp)
      simp only [List.length_cons, Nat.add_sub_cancel] at h ⊢
      simp only [linked_cells, List.cons_append, set_next]
      have e1 : base + 1 + (rs2.length + 1) = base + (rs2.length + 1 + 1) := by omega
      rw [e1] at h
      exact congrArg (List.cons _) h

/-- The closed form of the queue after pushes: the records lie at consecutive
new addresses, each pointing to the next one. -/
theorem PRINT_PUSH_linked_closed (h0 : List printer_cell) (rel : List Nat)
    (recs : List printer_item) (x : Arg) :
    PRINT_PUSH_linked
        ⟨h0 ++ linked_cells h0.length recs, rel,
          if recs = [] then none else some h0.length,
          if recs = [] then none else some (h0.length + (recs.length - 1))⟩ x
      = ⟨h0 ++ linked_cells h0.length (recs ++ [record_of x]), rel, some h0.length,
          some (h0.length + recs.length)⟩ := by
  have hlen : ∀ (b : Nat) (l : List printer_item), (linked_cells b l).length = l.length := by
    intro b l
    induction l generalizing b with
    | nil => rfl
    | cons r rs ih =>
      cases rs with
      | nil => rfl
      | cons r2 rs2 =>
        have := ih (b + 1)
        simp only [linked_cells, List.length_cons] at this ⊢
        rw [this]
  by_cases hr : recs = []
  · subst hr
    simp [PRINT_PUSH_linked, linked_cells, record_of, item_storage]
  · have h := set_next_linked_cells recs (record_of x) h0.length hr
    have h2 := set_next_append_right h0
      (linked_cells h0.length recs ++ [⟨none, (record_of x).typename, (record_of x).text⟩])
      (recs.length - 1) (some (h0.length + recs.length))
    rw [h] at h2
    simp only [PRINT_PUSH_linked, hr, if_false, List.length_append, hlen]
    rw [← h2]
    simp [record_of, item_storage, List.append_assoc]

theorem foldl_PRINT_PUSH_linked_closed (args : List Arg) :
    ∀ (h0 : List printer_cell) (rel : List Nat) (recs : List printer_item),
      args.foldl PRINT_PUSH_linked
          ⟨h0 ++ linked_cells h0.length recs, rel,
            if recs = [] then none else some h0.length,
            if recs = [] then none else some (h0.length + (recs.length - 1))⟩
        = ⟨h0 ++ linked_cells h0.length (recs ++ args.map record_of), rel,
            if recs ++ args.map record_of = [] then none else some h0.length,
            if recs ++ args.map record_of = [] then none
            else some (h0.length + ((recs ++ args.map record_of).length - 1))⟩ := by
  induction args with
  | nil => intro h0 rel recs; simp
  | cons x xs ih =>
    intro h0 rel recs
    simp only [List.foldl_cons]
    rw [PRINT_PUSH_linked_closed]
    have := ih h0 rel (recs ++ [record_of x])
    simp only [List.append_eq_nil, List.cons_ne_self, and_false, if_false, List.length_append,
      List.length_singleton, Nat.add_sub_cancel, reduceCtorEq] at this
    rw [this]
    simp [List.append_assoc]
theorem chain_linked_cells (recs : List printer_item) :
    ∀ (h0 : List printer_cell),
      chain (h0 ++ linked_cells h0.length recs) (if recs = [] then none else some h0.length)
        (List.range' h0.length recs.length) recs := by
  induction recs with
  | nil => intro h0; simp [chain]
  | cons r rs ih =>
    intro h0
    cases rs with
    | nil =>
      simp [chain, linked_cells, List.range'_succ]
    | cons r2 rs2 =>
      have h := ih (h0 ++ [⟨some (h0.length + 1), r.typename, r.text⟩])
      simp only [List.length_append, List.length_singleton, reduceCtorEq, if_false,
        List.append_assoc, List.singleton_append] at h
      have hget : (h0 ++ (⟨some (h0.length + 1), r.typename, r.text⟩ : printer_cell)
          :: linked_cells (h0.length + 1) (r2 :: rs2))[h0.length]?
          = some ⟨some (h0.length + 1), r.typename, r.text⟩ := by
        rw [List.getElem?_append_right (Nat.le_refl _), Nat.sub_self, List.getElem?_cons_zero]
      simp only [reduceCtorEq, if_false, linked_cells]
      rw [show (r :: r2 :: rs2).length = (r2 :: rs2).length + 1 from rfl, List.range'_succ]
      simp only [chain]
      rw [hget]
      exact ⟨trivial, rfl, h⟩

theorem chain_nil_left (cells : List printer_cell) (p : Option Nat) (recs : List printer_item)
    (h : chain cells p [] recs) : recs = [] ∧ p = none := by
  cases recs with
  | nil => simp only [chain] at h; exact ⟨rfl, h⟩
  | cons r rs => simp [chain] at h

theorem chain_last (cells : List printer_cell) :
    ∀ (recs : List printer_item) (p : Option Nat) (addrs : List Nat),
      chain cells p addrs recs → ∀ t, addrs.getLast? = some t →
        ∃ c, cells[t]? = some c ∧ c.next = none
          ∧ some (⟨c.typename, c.text⟩ : printer_item) = recs.getLast? := by
  intro recs
  induction recs with
  | nil =>
    intro p addrs h t ht
    rw [(chain_nil_right cells p addrs h).1] at ht
    simp at ht
  | cons r rs ih =>
    intro p addrs h t ht
    obtain ⟨a, as, c, h1, _, h3, h4, h5⟩ := chain_cons_right cells p addrs r rs h
    subst h1
    cases as with
    | nil =>
      obtain ⟨hrs, hn⟩ := chain_nil_left cells c.next rs h5
      subst hrs
      simp only [List.getLast?_singleton, Option.some.injEq] at ht
      subst ht
      exact ⟨c, h3, hn, by simp [h4]⟩
    | cons a2 as2 =>
      rw [List.getLast?_cons_cons] at ht
      obtain ⟨c2, hc1, hc2, hc3⟩ := ih c.next (a2 :: as2) h5 t ht
      refine ⟨c2, hc1, hc2, ?_⟩
      cases rs with
      | nil => simp [chain] at h5
      | cons r2 rs2 => rw [List.getLast?_cons_cons]; exact hc3

theorem linked_queue_closed (h0 : List printer_cell) (rel : List Nat) (args : List Arg) :
    linked_queue h0 rel args
      = ⟨h0 ++ linked_cells h0.length (args.map record_of), rel,
          if args.map record_of = [] then none else some h0.length,
          if args.map record_of = [] then none
          else some (h0.length + ((args.map record_of).length - 1))⟩ := by
  have h := foldl_PRINT_PUSH_linked_closed args h0 rel []
  simpa [linked_queue, PRINT_BEGIN_linked, linked_cells] using h

theorem linked_queue_chain (h0 : List printer_cell) (rel : List Nat) (args : List Arg) :
    chain (linked_queue h0 rel args).cells (linked_queue h0 rel args).head
      (List.range' h0.length args.length) (args.map record_of) := by
  rw [linked_queue_closed]
  have := chain_linked_cells (args.map record_of) h0
  simpa using this

theorem foldl_PRINT_PUSH_records (args : List Arg) (s : printer_state) :
    (args.foldl PRINT_PUSH s).head = s.head ++ args.map record_of :=
  foldl_PRINT_PUSH_head args s
theorem print_write_freed (s t : printer_state) (text : List Char) (len : Nat)
    (h : print_write s text len = some t) : t.freed = s.freed := by
  cases he : s.buf_end with
  | none =>
    rw [print_write_stream s he text len] at h
    simp only [Option.some.injEq] at h
    rw [← h]
  | some e =>
    by_cases hb : s.buf < e
    · rw [show print_write s text len = _ from print_write_bounded s e he hb text len] at h
      simp only [Option.some.injEq] at h
      rw [← h]
    · rw [show print_write s text len = _ from print_write_at_end s e he hb text len] at h
      cases h

theorem scan_freed (c : List Char) :
    ∀ (i j : List printer_item) (s t : printer_state),
      print_end_scan c i s = some (j, t) → t.freed ++ j = s.freed ++ i := by
  induction c with
  | nil =>
    intro i j s t h
    simp only [print_end_scan, Option.some.injEq, Prod.mk.injEq] at h
    rw [← h.1, ← h.2]
  | cons ch rest ih =>
    intro i j s t h
    by_cases hc : ch = '%'
    · cases i with
      | nil =>
        simp only [print_end_scan, hc, if_true] at h
        cases hw : print_write s "%!MISSING".toList 0 with
        | none => rw [hw] at h; cases h
        | some s1 =>
          rw [hw] at h
          rw [ih [] j s1 t h, print_write_freed s s1 _ _ hw]
      | cons item next =>
        simp only [print_end_scan, hc, if_true] at h
        cases hw : print_write s item.text 0 with
        | none => rw [hw] at h; cases h
        | some s1 =>
          rw [hw] at h
          rw [ih next j _ t h, print_write_freed s s1 _ _ hw]
          simp
    · simp only [print_end_scan, hc, if_false] at h
      cases hw : print_write s (ch :: rest) 1 with
      | none => rw [hw] at h; cases h
      | some s1 =>
        rw [hw] at h
        rw [ih i j s1 t h, print_write_freed s s1 _ _ hw]

theorem extra_freed (i : List printer_item) :
    ∀ (s t : printer_state), print_end_extra i s = some t → t.freed = s.freed ++ i := by
  induction i with
  | nil =>
    intro s t h
    simp only [print_end_extra, Option.some.injEq] at h
    rw [← h]; simp
  | cons item next ih =>
    intro s t h
    simp only [print_end_extra] at h
    cases hw1 : print_write s item.typename 0 with
    | none => rw [hw1] at h; cases h
    | some s1 =>
      rw [hw1] at h
      simp only at h
      cases hw2 : print_write s1 "=".toList 0 with
      | none => rw [hw2] at h; cases h
      | some s2 =>
        rw [hw2] at h
        simp only at h
        cases hw3 : print_write s2 item.text 0 with
        | none => rw [hw3] at h; cases h
        | some s3 =>
          rw [hw3] at h
          simp only at h
          have hf3 : s3.freed = s.freed := by
            rw [print_write_freed s2 s3 _ _ hw3, print_write_freed s1 s2 _ _ hw2,
              print_write_freed s s1 _ _ hw1]
          by_cases hn : next = []
          · subst hn
            simp only [ne_eq, not_true_eq_false, if_false] at h
            rw [ih _ t h]
            simp [hf3]
          · simp only [hn, ne_eq, not_false_eq_true, if_true] at h
            cases hw4 : print_write { s3 with freed := s3.freed ++ [item] } ", ".toList 0 with
            | none => rw [hw4] at h; cases h
            | some s5 =>
              rw [hw4] at h
              simp only at h
              rw [ih s5 t h, print_write_freed _ s5 _ _ hw4]
              simp [hf3]

/-- When `print_end` returns, the records it has passed to `free` are the
records of the queue, each once and in queue order. -/
theorem print_end_freed (s t : printer_state) (h : print_end s = some t) :
    t.freed = s.freed ++ s.head := by
  unfold print_end at h
  cases hs : print_end_scan s.fmt s.head s with
  | none => rw [hs] at h; cases h
  | some r =>
    obtain ⟨j, s1⟩ := r
    rw [hs] at h
    simp only at h
    have h1 := scan_freed s.fmt s.head j s s1 hs
    have key : ∀ s4 : printer_state, s4.freed = s1.freed ++ j →
        (match s4.buf_end with
          | some e => some { s4 with mem := s4.mem.set e NUL, log := s4.log ++ [Event.term e] }
          | none => some s4) = some t → t.freed = s.freed ++ s.head := by
      intro s4 h4 hm
      cases hb : s4.buf_end with
      | none => rw [hb] at hm; cases hm; rw [h4, h1]
      | some e => rw [hb] at hm; cases hm; show s4.freed = _; rw [h4, h1]
    by_cases hj : j = []
    · simp only [hj, ne_eq, not_true_eq_false, if_false] at h
      exact key s1 (by rw [hj]; simp) h
    · simp only [hj, ne_eq, not_false_eq_true, if_true] at h
      cases hw : print_write s1 "%!(EXTRA ".toList 0 with
      | none => rw [hw] at h; cases h
      | some s2 =>
        rw [hw] at h
        simp only at h
        cases hx : print_end_extra j s2 with
        | none => rw [hx] at h; cases h
        | some s3 =>
          rw [hx] at h
          simp only at h
          cases hw2 : print_write s3 ")".toList 0 with
          | none => rw [hw2] at h; cases h
          | some s4 =>
            rw [hw2] at h
            refine key s4 ?_ h
            rw [print_write_freed s3 s4 _ _ hw2, extra_freed j s2 s3 hx,
              print_write_freed s1 s2 _ _ hw]
/-- C16. Starting from `head = tail = NULL`, pushing the arguments `v1 .. vm`
in order yields a queue whose traversal from `head` through `next` meets
exactly the records of `v1 .. vm` in this order, at `m` distinct new
addresses, and ends in `NULL`; `head` is `NULL` exactly when `m = 0`; `tail`
is the last record of the traversal and its `next` is `NULL`. One more
`PRINT_PUSH` keeps the records there and their order and links exactly one
record behind them. The list of records is the one the list-level `PRINT_PUSH`
builds. -/
theorem PRINT_PUSH_linked_order (h0 : List printer_cell) (rel : List Nat) (args : List Arg) :
    chain (linked_queue h0 rel args).cells (linked_queue h0 rel args).head
        (List.range' h0.length args.length) (args.map record_of)
      ∧ (List.range' h0.length args.length).Nodup
      ∧ (args.map record_of).length = args.length
      ∧ ((linked_queue h0 rel args).head = none ↔ args = [])
      ∧ (linked_queue h0 rel args).tail = (List.range' h0.length args.length).getLast?
      ∧ (∀ t, (linked_queue h0 rel args).tail = some t →
          ∃ c, (linked_queue h0 rel args).cells[t]? = some c ∧ c.next = none
            ∧ some (⟨c.typename, c.text⟩ : printer_item) = (args.map record_of).getLast?)
      ∧ (∀ x, PRINT_PUSH_linked (linked_queue h0 rel args) x = linked_queue h0 rel (args ++ [x])
          ∧ chain (PRINT_PUSH_linked (linked_queue h0 rel args) x).cells
              (PRINT_PUSH_linked (linked_queue h0 rel args) x).head
              (List.range' h0.length args.length ++ [h0.length + args.length])
              (args.map record_of ++ [record_of x]))
      ∧ (∀ s : printer_state, (args.foldl PRINT_PUSH s).head = s.head ++ args.map record_of) := by
  have hchain := linked_queue_chain h0 rel args
  have hclosed := linked_queue_closed h0 rel args
  have htail : (linked_queue h0 rel args).tail
      = (List.range' h0.length args.length).getLast? := by
    rw [hclosed, List.getLast?_range']
    by_cases ha : args = []
    · simp [ha]
    · have : args.length ≠ 0 := by simpa using ha
      simp [ha, this]
      omega
  refine ⟨hchain, List.nodup_range' _ _, by simp, ?_, htail, ?_, ?_,
    fun s => foldl_PRINT_PUSH_head args s⟩
  · rw [hclosed]
    by_cases ha : args = [] <;> simp [ha]
  · intro t ht
    rw [htail] at ht
    exact chain_last _ _ _ _ hchain t ht
  · intro x
    have hstep : PRINT_PUSH_linked (linked_queue h0 rel args) x
        = linked_queue h0 rel (args ++ [x]) := by
      simp [linked_queue, List.foldl_append]
    refine ⟨hstep, ?_⟩
    rw [hstep]
    have := linked_queue_chain h0 rel (args ++ [x])
    rw [List.length_append, List.length_singleton, List.range'_concat, List.map_append] at this
    simpa using this

/-- C19. On a queue that is a chain of distinct live records, `print_end` at
the level of pointers, where reading a member of a released record and
releasing a record twice are faults, does what `print_end` does on the list
of records and faults nowhere: whenever `print_end` returns, every record of
the chain has been passed to `free` exactly once, in queue order (consumed
records at their placeholder, surplus records in the extra block), none is
left, and no member of a record was read after its release. -/
theorem print_end_releases_queue (q : linked_state) (s : printer_state) (addrs : List Nat)
    (hch : chain q.cells q.head addrs s.head) (hnd : addrs.Nodup)
    (hlive : ∀ a ∈ addrs, a ∉ q.released) :
    print_end_linked q s
        = (print_end s).map
            (fun t => (({ q with released := q.released ++ addrs } : linked_state), t))
      ∧ (∀ a ∈ addrs, (q.released ++ addrs).count a = 1)
      ∧ (∀ t, print_end s = some t → t.freed = s.freed ++ s.head) := by
  refine ⟨print_end_linked_eq q s addrs hch hnd hlive, ?_, fun t h => print_end_freed s t h⟩
  intro a ha
  rw [List.count_append, List.count_eq_zero.2 (hlive a ha), List.count_eq_one_of_mem hnd ha]

theorem print_end_releases_queue_witness :
    print_end_linked linked_extra session_extra
        = (print_end session_extra).map
            (fun t => (({ linked_extra with released := linked_extra.released ++ [0, 1] }
              : linked_state), t))
      ∧ (∀ a ∈ [0, 1], (linked_extra.released ++ [0, 1]).count a = 1)
      ∧ (∀ t, print_end session_extra = some t
          → t.freed = session_extra.freed ++ session_extra.head) :=
  print_end_releases_queue linked_extra session_extra [0, 1]
    (linked_queue_chain [] [] [arg_int_3, arg_str_ok]) (by decide) (by decide)
/-- The queue the macros build is a chain of distinct live records, so
`print_end` at the level of pointers releases exactly its records:
the allocations made before the session are `h0`, and nothing beyond them has
been released. -/
theorem print_end_linked_queue (h0 : List printer_cell) (rel : List Nat)
    (hrel : ∀ a ∈ rel, a < h0.length) (args : List Arg) (s : printer_state)
    (hs : s.head = []) :
    print_end_linked (linked_queue h0 rel args) (args.foldl PRINT_PUSH s)
      = (print_end (args.foldl PRINT_PUSH s)).map
          (fun t => (({ linked_queue h0 rel args with
              released := rel ++ List.range' h0.length args.length } : linked_state), t)) := by
  have hhead : (args.foldl PRINT_PUSH s).head = args.map record_of := by
    rw [foldl_PRINT_PUSH_records, hs]; simp
  have hch := linked_queue_chain h0 rel args
  rw [← hhead] at hch
  have hrl : (linked_queue h0 rel args).released = rel := by
    rw [linked_queue_closed]
  have hlive : ∀ a ∈ List.range' h0.length args.length,
      a ∉ (linked_queue h0 rel args).released := by
    intro a ha hmem
    rw [hrl] at hmem
    have h1 := hrel a hmem
    have h2 := (List.mem_range'_1.1 ha).1
    omega
  have := print_end_linked_eq _ _ _ hch (List.nodup_range' _ _) hlive
  rw [hrl] at this
  exact this

end Cfmt
